import Mathlib

/-!
Verification of the UPER bit-codec of `src/io/uper.rs` (asn1rs).

The `Reader`/`Writer` traits of `src/io/uper.rs` are embedded shallowly,
instantiated at the `BitBuffer` of §4.1 of the specification (the file
`src/io/buffer.rs` is not among the provided sources, so the buffer itself
is modelled from the spec; every `Modelled from the spec:` doc comment
marks such a definition).  Machine integers are modelled by `Nat`/`Int`
with explicit two's-complement wrapping where the source casts or may
overflow in release mode.
-/

namespace Uper

/-- Error kinds of the UPER codec (src/io/uper.rs, `enum Error`). -/
inductive Error where
  | InvalidUtf8String : Error
  | UnsupportedOperation : String → Error
  | InsufficientSpaceInDestinationBuffer : Error
  | InsufficientDataInSourceBuffer : Error
  | InvalidChoiceIndex : Nat → Nat → Error
  | ValueNotInRange : Int → Int → Int → Error
  | SizeNotInRange : Nat → Nat → Nat → Error
  | OptFlagsExhausted : Error
  | EndOfStream : Error
deriving DecidableEq, Repr

/-- Recognise the `ValueNotInRange` error kind. -/
def Error.isValueNotInRange : Error → Bool
  | .ValueNotInRange _ _ _ => true
  | _ => false

/-- Recognise the `UnsupportedOperation` error kind. -/
def Error.isUnsupportedOperation : Error → Bool
  | .UnsupportedOperation _ => true
  | _ => false

/-- `UPER_LENGTH_DET_L1` (src/io/uper.rs). -/
def UPER_LENGTH_DET_L1 : Int := 127

/-- `UPER_LENGTH_DET_L2` (src/io/uper.rs). -/
def UPER_LENGTH_DET_L2 : Int := 16383

/-- Reinterpret a `u64` bit pattern (a natural below `2 ^ 64`) as an `i64` (Rust `as i64`). -/
def i64_of_u64 (n : Nat) : Int := if n < 2 ^ 63 then (n : Int) else (n : Int) - 2 ^ 64

/-- Reinterpret an `i64` value as a `u64` (Rust `as u64`); on an unbounded
integer this is the two's-complement wrap into `0 .. 2 ^ 64`. -/
def u64_of_i64 (x : Int) : Nat := (x % 2 ^ 64).toNat

/-- Wrap an unbounded integer into the `i64` range: release-mode
two's-complement wrapping of `i64` arithmetic. -/
def wrap64 (x : Int) : Int := (x + 2 ^ 63) % 2 ^ 64 - 2 ^ 63

/-- Fuel-bounded binary length of a natural number; with fuel 64 this is the
bit length of any `u64` value (kernel-reducible, unlike `Nat.size`). -/
def natSizeAux : Nat → Nat → Nat
  | 0, _ => 0
  | fuel + 1, n => if n = 0 then 0 else natSizeAux fuel (n / 2) + 1

/-- Bit length of a `u64` value. -/
def natSize64 (n : Nat) : Nat := natSizeAux 64 n

/-- `u64::leading_zeros` for values below `2 ^ 64`. -/
def leadingZeros64 (n : Nat) : Nat := 64 - natSize64 n

/-- MSB-first numeric value of a bit list (stream bit order). -/
def valMSB (bs : List Bool) : Nat := bs.foldl (fun a b => 2 * a + cond b 1 0) 0

/-- The `w` least-significant bits of `n`, most significant first. -/
def bitsOfWidth (w n : Nat) : List Bool := (List.range w).map (fun k => n.testBit (w - 1 - k))

/-- Bit `i` of a byte sequence under the MSB-first indexing rule:
position `7 - (i mod 8)` of octet `i div 8`. -/
def byteBit (bs : List Nat) (i : Nat) : Bool := Nat.testBit (bs.getD (i / 8) 0) (7 - i % 8)

/-- `u64::to_be_bytes` / `NetworkEndian::write_u64`: the eight big-endian octets of `v`. -/
def be_bytes (v : Nat) : List Nat := (List.range 8).map (fun j => v / 2 ^ (8 * (7 - j)) % 256)

/-- `NetworkEndian::read_u64`: big-endian `u64` of the first eight octets. -/
def read_u64 (bs : List Nat) : Nat := (bs.take 8).foldl (fun a b => a * 256 + b % 256) 0

/-- Set (`buffer[byte_pos] |= 1 << bit_pos`) or clear
(`buffer[byte_pos] &= not (1 << bit_pos)`) bit `pos` of a byte sequence,
MSB-first within each octet. -/
def setBitInBytes (bs : List Nat) (pos : Nat) (b : Bool) : List Nat :=
  bs.set (pos / 8)
    (if b then bs.getD (pos / 8) 0 ||| 1 <<< (7 - pos % 8)
     else bs.getD (pos / 8) 0 &&& (255 ^^^ 1 <<< (7 - pos % 8)))

/-- Octets of a bit stream, MSB-first within each octet, the trailing
partial octet zero-padded. -/
def bitsToBytes (bits : List Bool) : List Nat :=
  (List.range ((bits.length + 7) / 8)).map
    (fun j => valMSB ((List.range 8).map (fun k => bits.getD (8 * j + k) false)))

/-- Modelled from the spec: the BitBuffer of §4.1 (`src/io/buffer.rs` is not
among the provided sources).  `bits` is the written bit stream, so
`write_pos = bits.length`; `read_pos` is the read cursor.  The invariant
`read_pos ≤ write_pos` and the zero-padding of the final octet are implied
by this representation. -/
structure BitBuffer where
  bits : List Bool
  read_pos : Nat
deriving DecidableEq, Repr

namespace BitBuffer

/-- Modelled from the spec: `BitBuffer::default()` — created empty (§4.1). -/
def default : BitBuffer := ⟨[], 0⟩

/-- Modelled from the spec: §4.1 `write_bit(b)` — append one bit at
`write_pos`; never fails. -/
def write_bit (buf : BitBuffer) (b : Bool) : BitBuffer := { buf with bits := buf.bits ++ [b] }

/-- Modelled from the spec: §4.1 `read_bit()` — read one bit at `read_pos`,
failing with `EndOfStream` when `read_pos = write_pos`. -/
def read_bit (buf : BitBuffer) : BitBuffer × Except Error Bool :=
  if h : buf.read_pos < buf.bits.length then
    ({ buf with read_pos := buf.read_pos + 1 }, .ok (buf.bits.get ⟨buf.read_pos, h⟩))
  else (buf, .error .EndOfStream)

/-- Modelled from the spec: §4.1 `bit_len()` = `write_pos`. -/
def bit_len (buf : BitBuffer) : Nat := buf.bits.length

/-- Modelled from the spec: §4.1 `byte_len()` = `ceil(write_pos / 8)`. -/
def byte_len (buf : BitBuffer) : Nat := (buf.bits.length + 7) / 8

/-- Modelled from the spec: §4.1 `content()` = `storage[0..byte_len]`, the
bits beyond `write_pos` being zero. -/
def content (buf : BitBuffer) : List Nat := bitsToBytes buf.bits

/-- Modelled from the spec: §4.1 `from_bits(bytes, bit_len)` — adopt the
first `bit_len` bits of `bytes`, `read_pos = 0`. -/
def from_bits (bytes : List Nat) (len : Nat) : BitBuffer :=
  ⟨(List.range len).map (byteBit bytes), 0⟩

/-- Modelled from the spec: §6 `bits_remaining()` = `write_pos − read_pos`. -/
def bits_remaining (buf : BitBuffer) : Nat := buf.bits.length - buf.read_pos

end BitBuffer

/-! ### Reader (src/io/uper.rs, `trait Reader`, instantiated at `BitBuffer`) -/

/-- Loop of `Reader::read_bit_string` (src/io/uper.rs): read `n` bits of the
stream into MSB-first positions `pos, pos + 1, …` of `dst`, setting or
resetting each destination bit. -/
def read_bit_string_loop (buf : BitBuffer) (dst : List Nat) (pos : Nat) :
    Nat → BitBuffer × List Nat × Option Error
  | 0 => (buf, dst, none)
  | n + 1 =>
    match buf.read_bit with
    | (buf', .ok b) => read_bit_string_loop buf' (setBitInBytes dst pos b) (pos + 1) n
    | (buf', .error e) => (buf', dst, some e)

/-- `Reader::read_bit_string` (src/io/uper.rs). -/
def read_bit_string (buf : BitBuffer) (dst : List Nat) (bit_offset bit_length : Nat) :
    BitBuffer × List Nat × Option Error :=
  if dst.length * 8 < bit_offset ∨ dst.length * 8 < bit_offset + bit_length then
    (buf, dst, some .InsufficientSpaceInDestinationBuffer)
  else read_bit_string_loop buf dst bit_offset bit_length

/-- `Reader::read_bit_string_till_end` (src/io/uper.rs). -/
def read_bit_string_till_end (buf : BitBuffer) (dst : List Nat) (bit_offset : Nat) :
    BitBuffer × List Nat × Option Error :=
  read_bit_string buf dst bit_offset (dst.length * 8 - bit_offset)

/-- `Reader::read_int` (src/io/uper.rs).  Range is inclusive; the final
`value + lower` is wrapping `i64` addition. -/
def read_int (buf : BitBuffer) (range : Int × Int) : BitBuffer × Except Error Int :=
  let lower := range.1
  let upper := range.2
  let lz := leadingZeros64 (u64_of_i64 (upper - lower))
  match read_bit_string_till_end buf (List.replicate 8 0) lz with
  | (buf', dst, none) => (buf', .ok (wrap64 (i64_of_u64 (read_u64 dst) + lower)))
  | (buf', _, some e) => (buf', .error e)

/-- `Reader::read_length_determinant` (src/io/uper.rs). -/
def read_length_determinant (buf : BitBuffer) : BitBuffer × Except Error Nat :=
  match buf.read_bit with
  | (buf1, .error e) => (buf1, .error e)
  | (buf1, .ok b1) =>
    if b1 = false then
      match read_int buf1 (0, UPER_LENGTH_DET_L1) with
      | (buf2, .ok v) => (buf2, .ok (u64_of_i64 v))
      | (buf2, .error e) => (buf2, .error e)
    else
      match buf1.read_bit with
      | (buf2, .error e) => (buf2, .error e)
      | (buf2, .ok b2) =>
        if b2 = false then
          match read_int buf2 (0, UPER_LENGTH_DET_L2) with
          | (buf3, .ok v) => (buf3, .ok (u64_of_i64 v))
          | (buf3, .error e) => (buf3, .error e)
        else
          (buf2, .error (.UnsupportedOperation
            "Cannot read length determinant for other than i8 and i16"))

/-- `Reader::read_int_max` (src/io/uper.rs). -/
def read_int_max (buf : BitBuffer) : BitBuffer × Except Error Nat :=
  match read_length_determinant buf with
  | (buf1, .error e) => (buf1, .error e)
  | (buf1, .ok len_in_bytes) =>
    if len_in_bytes > 8 then
      (buf1, .error (.UnsupportedOperation
        "Reading bigger data types than 64bit is not supported"))
    else
      let offset := 8 * 8 - len_in_bytes * 8
      match read_bit_string_till_end buf1 (List.replicate 8 0) offset with
      | (buf2, dst, none) => (buf2, .ok (read_u64 dst))
      | (buf2, _, some e) => (buf2, .error e)

/-- `Reader::read_int_normally_small` (src/io/uper.rs, X.691 §11.6).  The
source reads six bits into the final octet of an eight-octet buffer
(`&mut buffer[7..8]`, offset 2) and takes `u64::from_be_bytes`; the slice is
modelled by a single-octet destination whose final value is the result. -/
def read_int_normally_small (buf : BitBuffer) : BitBuffer × Except Error Nat :=
  match buf.read_bit with
  | (buf1, .error e) => (buf1, .error e)
  | (buf1, .ok b) =>
    if b = false then
      match read_bit_string buf1 [0] 2 6 with
      | (buf2, bytes, none) => (buf2, .ok (bytes.getD 0 0))
      | (buf2, _, some e) => (buf2, .error e)
    else read_int_max buf1

/-- `Reader::read_choice_index` (src/io/uper.rs). -/
def read_choice_index (buf : BitBuffer) (no_of_default_variants : Nat) :
    BitBuffer × Except Error Nat :=
  match read_int buf (0, wrap64 (i64_of_u64 no_of_default_variants - 1)) with
  | (buf1, .ok v) => (buf1, .ok (u64_of_i64 v))
  | (buf1, .error e) => (buf1, .error e)

/-- `Reader::read_choice_index_extensible` (src/io/uper.rs); the sum with
`no_of_default_variants` is wrapping `u64` addition. -/
def read_choice_index_extensible (buf : BitBuffer) (no_of_default_variants : Nat) :
    BitBuffer × Except Error Nat :=
  match buf.read_bit with
  | (buf1, .error e) => (buf1, .error e)
  | (buf1, .ok b) =>
    if b then
      match read_int_normally_small buf1 with
      | (buf2, .ok k) => (buf2, .ok ((k + no_of_default_variants) % 2 ^ 64))
      | (buf2, .error e) => (buf2, .error e)
    else read_choice_index buf1 no_of_default_variants

/-- `Reader::read_octet_string` (src/io/uper.rs). -/
def read_octet_string (buf : BitBuffer) (length_range : Option (Int × Int)) :
    BitBuffer × Except Error (List Nat) :=
  let lenRes : BitBuffer × Except Error Nat :=
    match length_range with
    | some (mn, mx) =>
      match read_int buf (mn, mx) with
      | (b, .ok v) => (b, .ok (u64_of_i64 v))
      | (b, .error e) => (b, .error e)
    | none => read_length_determinant buf
  match lenRes with
  | (buf1, .error e) => (buf1, .error e)
  | (buf1, .ok len) =>
    match read_bit_string_till_end buf1 (List.replicate len 0) 0 with
    | (buf2, bytes, none) => (buf2, .ok bytes)
    | (buf2, _, some e) => (buf2, .error e)

/-- Modelled from the spec: `String::from_utf8` validity (standard-library
code, not part of this repository); §4.2 requires the UTF-8 string read to
"verify valid UTF-8 or fail InvalidUtf8String". -/
def isValidUtf8 : List Nat → Bool
  | [] => true
  | b0 :: rest =>
    if b0 ≤ 0x7F then isValidUtf8 rest
    else if 0xC2 ≤ b0 && b0 ≤ 0xDF then
      match rest with
      | b1 :: rest1 => (0x80 ≤ b1 && b1 ≤ 0xBF) && isValidUtf8 rest1
      | _ => false
    else if b0 = 0xE0 then
      match rest with
      | b1 :: b2 :: rest2 =>
        (0xA0 ≤ b1 && b1 ≤ 0xBF) && (0x80 ≤ b2 && b2 ≤ 0xBF) && isValidUtf8 rest2
      | _ => false
    else if (0xE1 ≤ b0 && b0 ≤ 0xEC) || (0xEE ≤ b0 && b0 ≤ 0xEF) then
      match rest with
      | b1 :: b2 :: rest2 =>
        (0x80 ≤ b1 && b1 ≤ 0xBF) && (0x80 ≤ b2 && b2 ≤ 0xBF) && isValidUtf8 rest2
      | _ => false
    else if b0 = 0xED then
      match rest with
      | b1 :: b2 :: rest2 =>
        (0x80 ≤ b1 && b1 ≤ 0x9F) && (0x80 ≤ b2 && b2 ≤ 0xBF) && isValidUtf8 rest2
      | _ => false
    else if b0 = 0xF0 then
      match rest with
      | b1 :: b2 :: b3 :: rest3 =>
        (0x90 ≤ b1 && b1 ≤ 0xBF) && (0x80 ≤ b2 && b2 ≤ 0xBF) &&
          (0x80 ≤ b3 && b3 ≤ 0xBF) && isValidUtf8 rest3
      | _ => false
    else if 0xF1 ≤ b0 && b0 ≤ 0xF3 then
      match rest with
      | b1 :: b2 :: b3 :: rest3 =>
        (0x80 ≤ b1 && b1 ≤ 0xBF) && (0x80 ≤ b2 && b2 ≤ 0xBF) &&
          (0x80 ≤ b3 && b3 ≤ 0xBF) && isValidUtf8 rest3
      | _ => false
    else if b0 = 0xF4 then
      match rest with
      | b1 :: b2 :: b3 :: rest3 =>
        (0x80 ≤ b1 && b1 ≤ 0x8F) && (0x80 ≤ b2 && b2 ≤ 0xBF) &&
          (0x80 ≤ b3 && b3 ≤ 0xBF) && isValidUtf8 rest3
      | _ => false
    else false
termination_by l => l.length
decreasing_by all_goals simp_wf <;> omega

/-- `Reader::read_utf8_string` (src/io/uper.rs); the returned `String` is
modelled by its UTF-8 byte sequence. -/
def read_utf8_string (buf : BitBuffer) : BitBuffer × Except Error (List Nat) :=
  match read_length_determinant buf with
  | (buf1, .error e) => (buf1, .error e)
  | (buf1, .ok len) =>
    match read_bit_string_till_end buf1 (List.replicate len 0) 0 with
    | (buf2, bytes, none) =>
      if isValidUtf8 bytes then (buf2, .ok bytes) else (buf2, .error .InvalidUtf8String)
    | (buf2, _, some e) => (buf2, .error e)

/-- `Reader::read_substring_with_length_determinant_prefix` (src/io/uper.rs);
sub-strings larger than 16k are not supported. -/
def read_substring_with_length_determinant_pfx (buf : BitBuffer) :
    BitBuffer × Except Error BitBuffer :=
  match read_length_determinant buf with
  | (buf1, .error e) => (buf1, .error e)
  | (buf1, .ok byteLen) =>
    let bitLen := byteLen * 8
    match read_bit_string buf1 (List.replicate byteLen 0) 0 bitLen with
    | (buf2, bytes, none) => (buf2, .ok (BitBuffer.from_bits bytes bitLen))
    | (buf2, _, some e) => (buf2, .error e)

/-! ### Writer (src/io/uper.rs, `trait Writer`, instantiated at `BitBuffer`) -/

/-- Result of a writer operation: the (possibly partially) mutated buffer
together with `none` on success or the error returned. -/
abbrev WResult := BitBuffer × Option Error

/-- Sequencing of writer operations (the `?` operator): a failure keeps the
mutations already applied and short-circuits. -/
def wseq (r : WResult) (f : BitBuffer → WResult) : WResult :=
  match r with
  | (b, none) => f b
  | (b, some e) => (b, some e)

/-- Loop of `Writer::write_bit_string` (src/io/uper.rs): emit `n` bits of
`bytes` starting at MSB-first position `pos`.  `BitBuffer::write_bit` never
fails, so the loop is total. -/
def write_bit_string_loop (buf : BitBuffer) (bytes : List Nat) (pos : Nat) :
    Nat → BitBuffer
  | 0 => buf
  | n + 1 => write_bit_string_loop (buf.write_bit (byteBit bytes pos)) bytes (pos + 1) n

/-- `Writer::write_bit_string` (src/io/uper.rs). -/
def write_bit_string (buf : BitBuffer) (bytes : List Nat) (bit_offset bit_length : Nat) :
    WResult :=
  if bytes.length * 8 < bit_offset ∨ bytes.length * 8 < bit_offset + bit_length then
    (buf, some .InsufficientDataInSourceBuffer)
  else (write_bit_string_loop buf bytes bit_offset bit_length, none)

/-- `Writer::write_bit_string_till_end` (src/io/uper.rs). -/
def write_bit_string_till_end (buf : BitBuffer) (bytes : List Nat) (bit_offset : Nat) :
    WResult :=
  write_bit_string buf bytes bit_offset (bytes.length * 8 - bit_offset)

/-- `Writer::write_int` (src/io/uper.rs).  Range is inclusive; the casts
`(value - lower) as u64` and `(upper - lower) as u64` follow two's
complement. -/
def write_int (buf : BitBuffer) (value : Int) (range : Int × Int) : WResult :=
  let lower := range.1
  let upper := range.2
  if value > upper ∨ value < lower then (buf, some (.ValueNotInRange value lower upper))
  else
    let v := u64_of_i64 (value - lower)
    let lz := leadingZeros64 (u64_of_i64 (upper - lower))
    write_bit_string_till_end buf (be_bytes v) lz

/-- `Writer::write_length_determinant` (src/io/uper.rs); the error message of
the unsupported branch is abbreviated to a fixed string. -/
def write_length_determinant (buf : BitBuffer) (length : Nat) : WResult :=
  if length ≤ 127 then
    write_int (buf.write_bit false) (i64_of_u64 length) (0, UPER_LENGTH_DET_L1)
  else if length ≤ 16383 then
    write_int ((buf.write_bit true).write_bit false) (i64_of_u64 length) (0, UPER_LENGTH_DET_L2)
  else
    (buf, some (.UnsupportedOperation
      "Writing length determinant for lengths > 16383 is unsupported"))

/-- Leading-zero-octet stripping loop of `Writer::write_int_max`
(src/io/uper.rs): `while len > 0 and buffer[buffer.len() - len] == 0 do len -= 1`. -/
def stripLen (bytes : List Nat) : Nat → Nat
  | 0 => 0
  | n + 1 => if bytes.getD (bytes.length - (n + 1)) 0 = 0 then stripLen bytes n else n + 1

/-- `Writer::write_int_max` (src/io/uper.rs): big-endian octets prefixed with
a length determinant, leading zero octets stripped but at least one octet. -/
def write_int_max (buf : BitBuffer) (value : Nat) : WResult :=
  if value > 2 ^ 63 - 1 then
    (buf, some (.ValueNotInRange (i64_of_u64 value) 0 (2 ^ 63 - 1)))
  else
    let buffer := be_bytes value
    let byteLen := max (stripLen buffer 8) 1
    wseq (write_length_determinant buf byteLen)
      (fun b => write_bit_string_till_end b buffer ((8 - byteLen) * 8))

/-- `Writer::write_int_normally_small` (src/io/uper.rs, X.691 §11.6); the
slice `&buffer[7..8]` of `value.to_be_bytes()` is `(be_bytes value).drop 7`. -/
def write_int_normally_small (buf : BitBuffer) (value : Nat) : WResult :=
  if value ≤ 63 then
    write_bit_string (buf.write_bit false) ((be_bytes value).drop 7) 2 6
  else
    write_int_max (buf.write_bit true) value

/-- `Writer::write_choice_index` (src/io/uper.rs); `index as i64` and
`no_of_default_variants as i64 - 1` follow two's complement. -/
def write_choice_index (buf : BitBuffer) (index : Nat) (no_of_default_variants : Nat) :
    WResult :=
  write_int buf (i64_of_u64 index) (0, wrap64 (i64_of_u64 no_of_default_variants - 1))

/-- `Writer::write_choice_index_extensible` (src/io/uper.rs). -/
def write_choice_index_extensible (buf : BitBuffer) (index : Nat)
    (no_of_default_variants : Nat) : WResult :=
  if index ≥ no_of_default_variants then
    write_int_normally_small (buf.write_bit true) (index - no_of_default_variants)
  else
    write_choice_index (buf.write_bit false) index no_of_default_variants

/-- `Writer::write_octet_string` (src/io/uper.rs). -/
def write_octet_string (buf : BitBuffer) (string : List Nat)
    (length_range : Option (Int × Int)) : WResult :=
  let r :=
    match length_range with
    | some (mn, mx) => write_int buf (i64_of_u64 string.length) (mn, mx)
    | none => write_length_determinant buf string.length
  wseq r (fun b => write_bit_string_till_end b string 0)

/-- `Writer::write_utf8_string` (src/io/uper.rs); the `&str` argument is
modelled by its UTF-8 byte sequence, whose length is `value.len()`. -/
def write_utf8_string (buf : BitBuffer) (value : List Nat) : WResult :=
  wseq (write_length_determinant buf value.length)
    (fun b => write_bit_string_till_end b value 0)

/-- `Writer::write_substring_with_length_determinant_prefix` (src/io/uper.rs):
run the producer into a fresh `BitBuffer`, then emit that buffer's byte
length as a determinant followed by its content bits. -/
def write_substring_with_length_determinant_pfx (buf : BitBuffer)
    (producer : BitBuffer → BitBuffer × Option Error) : WResult :=
  match producer BitBuffer.default with
  | (_, some e) => (buf, some e)
  | (inner, none) =>
    wseq (write_length_determinant buf inner.byte_len)
      (fun b => write_bit_string b inner.content 0 inner.bit_len)

end Uper

namespace Uper

/-! ### Bit-level arithmetic lemmas -/

theorem size_div2_succ (n : Nat) (h : n ≠ 0) : Nat.size (n / 2) + 1 = Nat.size n := by
  apply le_antisymm
  · show Nat.size (n / 2) < Nat.size n
    rw [Nat.lt_size]
    rcases eq_or_ne (n / 2) 0 with h2 | h2
    · rw [h2, Nat.size_zero]
      omega
    · have hlow : 2 ^ (Nat.size (n / 2) - 1) ≤ n / 2 := by
        rw [← Nat.lt_size]
        have := Nat.size_pos.mpr (Nat.pos_of_ne_zero h2)
        omega
      have hsz := Nat.size_pos.mpr (Nat.pos_of_ne_zero h2)
      have hpow : 2 ^ Nat.size (n / 2) = 2 * 2 ^ (Nat.size (n / 2) - 1) := by
        rw [← pow_succ']
        congr 1
        omega
      omega
  · rw [Nat.size_le]
    have := Nat.lt_size_self (n / 2)
    have h2 : 2 ^ (Nat.size (n / 2) + 1) = 2 * 2 ^ Nat.size (n / 2) := by ring
    omega

theorem natSizeAux_eq_size (fuel : Nat) :
    ∀ n, n < 2 ^ fuel → natSizeAux fuel n = Nat.size n := by
  induction fuel with
  | zero =>
    intro n h
    have : n = 0 := by simpa using h
    subst this
    simp [natSizeAux, Nat.size_zero]
  | succ f ih =>
    intro n h
    by_cases h0 : n = 0
    · subst h0
      simp [natSizeAux, Nat.size_zero]
    · have hp : 2 ^ (f + 1) = 2 * 2 ^ f := by ring
      rw [show natSizeAux (f + 1) n = natSizeAux f (n / 2) + 1 from by
        simp [natSizeAux, h0]]
      rw [ih (n / 2) (by omega)]
      exact size_div2_succ n h0

theorem natSize64_eq_size (n : Nat) (h : n < 2 ^ 64) : natSize64 n = Nat.size n :=
  natSizeAux_eq_size 64 n h

theorem leadingZeros64_eq (n : Nat) (h : n < 2 ^ 64) :
    leadingZeros64 n = 64 - Nat.size n := by
  unfold leadingZeros64
  rw [natSize64_eq_size n h]

theorem foldl_valMSB (bs : List Bool) :
    ∀ a : Nat, bs.foldl (fun x b => 2 * x + cond b 1 0) a = a * 2 ^ bs.length + valMSB bs := by
  induction bs with
  | nil => intro a; simp [valMSB]
  | cons b bs ih =>
    intro a
    simp only [List.foldl_cons, List.length_cons, valMSB]
    rw [ih (2 * a + cond b 1 0), ih (2 * 0 + cond b 1 0)]
    ring

theorem valMSB_cons (b : Bool) (bs : List Bool) :
    valMSB (b :: bs) = cond b 1 0 * 2 ^ bs.length + valMSB bs := by
  simp only [valMSB, List.foldl_cons]
  rw [foldl_valMSB]
  simp only [valMSB]
  ring

theorem valMSB_lt (bs : List Bool) : valMSB bs < 2 ^ bs.length := by
  induction bs with
  | nil => simp [valMSB]
  | cons b bs ih =>
    rw [valMSB_cons, List.length_cons, pow_succ]
    cases b <;> simp <;> omega

theorem bitsOfWidth_length (w n : Nat) : (bitsOfWidth w n).length = w := by
  simp [bitsOfWidth]

theorem bitsOfWidth_succ (w n : Nat) : bitsOfWidth (w + 1) n = n.testBit w :: bitsOfWidth w n := by
  apply List.ext_getElem
  · simp [bitsOfWidth_length]
  · intro i h1 h2
    match i with
    | 0 => simp [bitsOfWidth, List.getElem_map, List.getElem_range]
    | k + 1 =>
      rw [bitsOfWidth_length] at h1
      simp only [bitsOfWidth, List.getElem_map, List.getElem_range, List.getElem_cons_succ]
      congr 1
      omega

theorem valMSB_bitsOfWidth (w n : Nat) : valMSB (bitsOfWidth w n) = n % 2 ^ w := by
  induction w with
  | zero => simp [bitsOfWidth, valMSB, Nat.mod_one]
  | succ w ih =>
    rw [bitsOfWidth_succ, valMSB_cons, bitsOfWidth_length, ih, Nat.mod_pow_succ]
    have hbit : (cond (n.testBit w) 1 0 : Nat) = n / 2 ^ w % 2 := by
      rw [Nat.testBit_to_div_mod]
      rcases Nat.mod_two_eq_zero_or_one (n / 2 ^ w) with h | h <;> simp [h]
    rw [hbit]
    ring

theorem bitsOfWidth_mod (w n : Nat) : bitsOfWidth w (n % 2 ^ w) = bitsOfWidth w n := by
  unfold bitsOfWidth
  apply List.map_congr_left
  intro k hk
  rw [List.mem_range] at hk
  rw [Nat.testBit_mod_two_pow]
  have h : w - 1 - k < w := by omega
  simp [h]

theorem bitsOfWidth_valMSB (bs : List Bool) : bitsOfWidth bs.length (valMSB bs) = bs := by
  induction bs with
  | nil => rfl
  | cons b bs ih =>
    rw [List.length_cons, bitsOfWidth_succ]
    have hv := valMSB_lt bs
    congr 1
    · rw [valMSB_cons]
      cases b
      · simpa using Nat.testBit_lt_two_pow (by simpa using hv)
      · simp only [cond, one_mul]
        rw [Nat.testBit_to_div_mod]
        have hdiv : (2 ^ bs.length + valMSB bs) / 2 ^ bs.length = 1 := by
          rw [Nat.add_comm, Nat.add_div_right _ (Nat.pos_pow_of_pos _ (by norm_num)),
            Nat.div_eq_of_lt hv]
        simp [hdiv]
    · calc bitsOfWidth bs.length (valMSB (b :: bs))
          = bitsOfWidth bs.length (valMSB (b :: bs) % 2 ^ bs.length) := (bitsOfWidth_mod _ _).symm
        _ = bitsOfWidth bs.length (valMSB bs % 2 ^ bs.length) := by
            congr 1
            rw [valMSB_cons, Nat.add_comm, Nat.add_mul_mod_self_right]
        _ = bitsOfWidth bs.length (valMSB bs) := bitsOfWidth_mod _ _
        _ = bs := ih

theorem getD_bitsOfWidth (w n k : Nat) (h : k < w) :
    (bitsOfWidth w n).getD k false = n.testBit (w - 1 - k) := by
  simp [bitsOfWidth, List.getD_eq_getElem?_getD, List.getElem?_map, List.getElem?_range h]

/-! ### Byte-sequence lemmas -/

theorem byteBit_cons_lt (x : Nat) (bs : List Nat) (i : Nat) (h : i < 8) :
    byteBit (x :: bs) i = x.testBit (7 - i) := by
  simp [byteBit, Nat.div_eq_of_lt h, Nat.mod_eq_of_lt h]

theorem byteBit_cons_add (x : Nat) (bs : List Nat) (i : Nat) :
    byteBit (x :: bs) (8 + i) = byteBit bs i := by
  have hdiv : (8 + i) / 8 = i / 8 + 1 := by omega
  have hmod : (8 + i) % 8 = i % 8 := by omega
  simp [byteBit, hdiv, hmod]

theorem byteBit_ge (bs : List Nat) (i : Nat) (h : 8 * bs.length ≤ i) : byteBit bs i = false := by
  have h0 : bs.getD (i / 8) 0 = 0 := by
    rw [List.getD_eq_getElem?_getD, List.getElem?_eq_none (by omega)]
    rfl
  show Nat.testBit (bs.getD (i / 8) 0) (7 - i % 8) = false
  rw [h0]
  exact Nat.zero_testBit _

theorem bytes_ext (bs : List Nat) : ∀ (cs : List Nat), bs.length = cs.length →
    (∀ x ∈ bs, x < 256) → (∀ x ∈ cs, x < 256) →
    (∀ i, i < 8 * bs.length → byteBit bs i = byteBit cs i) → bs = cs := by
  induction bs with
  | nil => intro cs hlen _ _ _; cases cs <;> simp_all
  | cons x bs ih =>
    intro cs hlen hb hc hbit
    cases cs with
    | nil => simp at hlen
    | cons y cs =>
      have hx : x < 256 := hb x (by simp)
      have hy : y < 256 := hc y (by simp)
      have hxy : x = y := by
        apply Nat.eq_of_testBit_eq
        intro k
        by_cases hk : k < 8
        · have h7 : 7 - (7 - k) = k := by omega
          have := hbit (7 - k) (by simp [List.length_cons]; omega)
          rwa [byteBit_cons_lt _ _ _ (by omega), byteBit_cons_lt _ _ _ (by omega), h7] at this
        · have h2k : (256 : Nat) ≤ 2 ^ k := by
            calc (256 : Nat) = 2 ^ 8 := by norm_num
            _ ≤ 2 ^ k := Nat.pow_le_pow_right (by norm_num) (by omega)
          rw [Nat.testBit_lt_two_pow (by omega), Nat.testBit_lt_two_pow (by omega)]
      subst hxy
      congr 1
      apply ih cs (by simpa using hlen) (fun z hz => hb z (by simp [hz]))
        (fun z hz => hc z (by simp [hz]))
      intro i hi
      have := hbit (8 + i) (by simp [List.length_cons]; omega)
      rwa [byteBit_cons_add, byteBit_cons_add] at this

theorem map_range_getD {α : Type} (l : List α) (d : α) :
    (List.range l.length).map (fun i => l.getD i d) = l := by
  apply List.ext_getElem
  · simp
  · intro i h1 h2
    simp [List.getElem?_eq_getElem h2]

end Uper

namespace Uper

/-! ### Big-endian octet lemmas -/

theorem testBit_div_pow (v a b : Nat) : (v / 2 ^ a).testBit b = v.testBit (a + b) := by
  rw [Nat.testBit_to_div_mod, Nat.testBit_to_div_mod, Nat.div_div_eq_div_mul, ← pow_add]

theorem be_bytes_length (v : Nat) : (be_bytes v).length = 8 := by
  simp [be_bytes]

theorem be_bytes_mem_lt (v : Nat) : ∀ x ∈ be_bytes v, x < 256 := by
  intro x hx
  simp only [be_bytes, List.mem_map, List.mem_range] at hx
  obtain ⟨j, _, rfl⟩ := hx
  exact Nat.mod_lt _ (by norm_num)

theorem getD_be_bytes (v j : Nat) (h : j < 8) :
    (be_bytes v).getD j 0 = v / 2 ^ (8 * (7 - j)) % 256 := by
  simp [be_bytes, List.getD_eq_getElem?_getD, List.getElem?_map, List.getElem?_range h]

theorem byteBit_be_bytes (v i : Nat) (h : i < 64) : byteBit (be_bytes v) i = v.testBit (63 - i) := by
  have hj : i / 8 < 8 := by omega
  show Nat.testBit ((be_bytes v).getD (i / 8) 0) (7 - i % 8) = v.testBit (63 - i)
  rw [getD_be_bytes v _ hj, show (256 : Nat) = 2 ^ 8 from by norm_num,
    Nat.testBit_mod_two_pow, testBit_div_pow]
  have hlt : 7 - i % 8 < 8 := by omega
  have harg : 8 * (7 - i / 8) + (7 - i % 8) = 63 - i := by omega
  simp [hlt, harg]

theorem foldl_byte_shift (l : List Nat) :
    ∀ a : Nat, l.foldl (fun x b => x * 256 + b % 256) a
      = a * 256 ^ l.length + l.foldl (fun x b => x * 256 + b % 256) 0 := by
  induction l with
  | nil => intro a; simp
  | cons b l ih =>
    intro a
    simp only [List.foldl_cons, List.length_cons]
    rw [ih (a * 256 + b % 256), ih (0 * 256 + b % 256)]
    ring

theorem foldl_byte_digits (k : Nat) :
    ∀ v : Nat, ((List.range k).map (fun j => v / 256 ^ (k - 1 - j) % 256)).foldl
      (fun x b => x * 256 + b % 256) 0 = v % 256 ^ k := by
  induction k with
  | zero => intro v; simp [Nat.mod_one]
  | succ k ih =>
    intro v
    rw [List.range_succ_eq_map, List.map_cons, List.map_map, List.foldl_cons]
    have htail : List.map ((fun j => v / 256 ^ (k + 1 - 1 - j) % 256) ∘ Nat.succ) (List.range k)
        = List.map (fun j => v / 256 ^ (k - 1 - j) % 256) (List.range k) := by
      apply List.map_congr_left
      intro j hj
      simp only [Function.comp_apply]
      congr 2
      congr 1
      omega
    rw [htail, foldl_byte_shift, ih v, List.length_map, List.length_range, Nat.mod_pow_succ]
    have hhead : 0 * 256 + v / 256 ^ (k + 1 - 1 - 0) % 256 % 256 = v / 256 ^ k % 256 := by
      rw [Nat.mod_mod_of_dvd _ dvd_rfl, Nat.zero_mul, Nat.zero_add]
      rfl
    rw [hhead]
    ring

theorem read_u64_be_bytes (v : Nat) : read_u64 (be_bytes v) = v % 2 ^ 64 := by
  have hbe : be_bytes v = (List.range 8).map (fun j => v / 256 ^ (8 - 1 - j) % 256) := by
    unfold be_bytes
    apply List.map_congr_left
    intro j hj
    rw [List.mem_range] at hj
    have hp : 2 ^ (8 * (7 - j)) = 256 ^ (8 - 1 - j) := by
      rw [show (256 : Nat) = 2 ^ 8 from by norm_num, ← pow_mul]
    rw [hp]
  rw [read_u64, hbe, List.take_of_length_le (by simp), foldl_byte_digits 8 v]
  norm_num

/-! ### setBitInBytes lemmas -/

theorem length_setBitInBytes (bs : List Nat) (pos : Nat) (b : Bool) :
    (setBitInBytes bs pos b).length = bs.length := by
  simp [setBitInBytes]

theorem getD_lt_256 (bs : List Nat) (j : Nat) (hb : ∀ x ∈ bs, x < 256) : bs.getD j 0 < 256 := by
  rcases Nat.lt_or_ge j bs.length with h | h
  · rw [List.getD_eq_getElem _ _ h]
    exact hb _ (List.getElem_mem h)
  · rw [List.getD_eq_getElem?_getD, List.getElem?_eq_none h]
    norm_num

theorem mem_setBitInBytes_lt (bs : List Nat) (pos : Nat) (b : Bool)
    (hb : ∀ x ∈ bs, x < 256) : ∀ x ∈ setBitInBytes bs pos b, x < 256 := by
  intro x hx
  rcases List.mem_or_eq_of_mem_set hx with h | rfl
  · exact hb x h
  · have hbyte : bs.getD (pos / 8) 0 < 256 := getD_lt_256 bs _ hb
    have hmask : (1 <<< (7 - pos % 8) : Nat) < 256 := by
      rw [Nat.shiftLeft_eq, one_mul]
      calc (2 : Nat) ^ (7 - pos % 8) ≤ 2 ^ 7 := Nat.pow_le_pow_right (by norm_num) (by omega)
        _ < 256 := by norm_num
    cases b
    · simpa using lt_of_le_of_lt Nat.and_le_left hbyte
    · have h256 : (256 : Nat) = 2 ^ 8 := by norm_num
      rw [h256] at hbyte hmask ⊢
      simpa using Nat.or_lt_two_pow hbyte hmask

theorem getD_setBitInBytes_self (bs : List Nat) (pos : Nat) (b : Bool)
    (hk : pos / 8 < bs.length) :
    (setBitInBytes bs pos b).getD (pos / 8) 0
      = (if b then bs.getD (pos / 8) 0 ||| 1 <<< (7 - pos % 8)
         else bs.getD (pos / 8) 0 &&& (255 ^^^ 1 <<< (7 - pos % 8))) := by
  rw [setBitInBytes, List.getD_eq_getElem?_getD, List.getElem?_set]
  simp [hk]

theorem byteBit_setBitInBytes_self (bs : List Nat) (pos : Nat) (b : Bool)
    (h : pos < 8 * bs.length) : byteBit (setBitInBytes bs pos b) pos = b := by
  have hk : pos / 8 < bs.length := by omega
  show Nat.testBit ((setBitInBytes bs pos b).getD (pos / 8) 0) (7 - pos % 8) = b
  rw [getD_setBitInBytes_self bs pos b hk, Nat.shiftLeft_eq, one_mul]
  cases b
  · rw [if_neg (by simp)]
    rw [Nat.testBit_and, Nat.testBit_xor, show (255 : Nat) = 2 ^ 8 - 1 from by norm_num,
      Nat.testBit_two_pow_sub_one, Nat.testBit_two_pow_self]
    simp [show 7 - pos % 8 < 8 from by omega]
  · rw [if_pos rfl]
    rw [Nat.testBit_or, Nat.testBit_two_pow_self]
    simp

theorem byteBit_setBitInBytes_ne (bs : List Nat) (pos i : Nat) (b : Bool) (hne : i ≠ pos) :
    byteBit (setBitInBytes bs pos b) i = byteBit bs i := by
  show Nat.testBit ((setBitInBytes bs pos b).getD (i / 8) 0) (7 - i % 8)
      = Nat.testBit (bs.getD (i / 8) 0) (7 - i % 8)
  by_cases hbyte : i / 8 = pos / 8
  · by_cases hk : pos / 8 < bs.length
    · have hbit : i % 8 ≠ pos % 8 := by omega
      have hne2 : 7 - pos % 8 ≠ 7 - i % 8 := by omega
      rw [hbyte, getD_setBitInBytes_self bs pos b hk, Nat.shiftLeft_eq, one_mul]
      cases b
      · rw [if_neg (by simp)]
        rw [Nat.testBit_and, Nat.testBit_xor, show (255 : Nat) = 2 ^ 8 - 1 from by norm_num,
          Nat.testBit_two_pow_sub_one, Nat.testBit_two_pow_of_ne hne2]
        simp [show 7 - i % 8 < 8 from by omega, hbyte]
      · rw [if_pos rfl]
        rw [Nat.testBit_or, Nat.testBit_two_pow_of_ne hne2]
        simp [hbyte]
    · rw [setBitInBytes, List.set_eq_of_length_le (by omega)]
  · rw [setBitInBytes, List.getD_eq_getElem?_getD, List.getElem?_set,
      if_neg (by omega), ← List.getD_eq_getElem?_getD]

/-! ### bitsToBytes lemmas -/

theorem bitsToBytes_length (bits : List Bool) :
    (bitsToBytes bits).length = (bits.length + 7) / 8 := by
  simp [bitsToBytes]

theorem bitsToBytes_mem_lt (bits : List Bool) : ∀ x ∈ bitsToBytes bits, x < 256 := by
  intro x hx
  simp only [bitsToBytes, List.mem_map, List.mem_range] at hx
  obtain ⟨j, _, rfl⟩ := hx
  have h := valMSB_lt ((List.range 8).map (fun k => bits.getD (8 * j + k) false))
  simpa using h

theorem getD_bitsToBytes (bits : List Bool) (j : Nat) (h : j < (bits.length + 7) / 8) :
    (bitsToBytes bits).getD j 0
      = valMSB ((List.range 8).map (fun k => bits.getD (8 * j + k) false)) := by
  simp [bitsToBytes, List.getD_eq_getElem?_getD, List.getElem?_map, List.getElem?_range h]

theorem byteBit_bitsToBytes (bits : List Bool) (i : Nat)
    (h : i < 8 * ((bits.length + 7) / 8)) :
    byteBit (bitsToBytes bits) i = bits.getD i false := by
  have hj : i / 8 < (bits.length + 7) / 8 := by omega
  show Nat.testBit ((bitsToBytes bits).getD (i / 8) 0) (7 - i % 8) = bits.getD i false
  rw [getD_bitsToBytes bits _ hj]
  have hlen : ((List.range 8).map (fun k => bits.getD (8 * (i / 8) + k) false)).length = 8 := by
    simp
  have h1 := getD_bitsOfWidth
    (((List.range 8).map (fun k => bits.getD (8 * (i / 8) + k) false)).length)
    (valMSB ((List.range 8).map (fun k => bits.getD (8 * (i / 8) + k) false)))
    (i % 8) (by rw [hlen]; omega)
  rw [bitsOfWidth_valMSB] at h1
  rw [hlen] at h1
  rw [show (8 : Nat) - 1 - i % 8 = 7 - i % 8 from by omega] at h1
  rw [← h1]
  simp only [List.getD_eq_getElem?_getD, List.getElem?_map,
    List.getElem?_range (show i % 8 < 8 from by omega), Option.map_some', Option.getD_some]
  rw [show 8 * (i / 8) + i % 8 = i from by omega]

end Uper

namespace Uper

/-! ### Write-loop characterisation -/

theorem map_range_shift {α : Type} (f : Nat → α) (n pos : Nat) :
    (List.range (n + 1)).map (fun k => f (pos + k))
      = f pos :: (List.range n).map (fun k => f (pos + 1 + k)) := by
  rw [List.range_succ_eq_map, List.map_cons, List.map_map]
  congr 1
  apply List.map_congr_left
  intro k _
  simp only [Function.comp_apply]
  congr 1
  omega

theorem write_bit_string_loop_spec (n : Nat) :
    ∀ (buf : BitBuffer) (bytes : List Nat) (pos : Nat),
    write_bit_string_loop buf bytes pos n
      = ⟨buf.bits ++ (List.range n).map (fun k => byteBit bytes (pos + k)), buf.read_pos⟩ := by
  induction n with
  | zero =>
    intro buf bytes pos
    simp [write_bit_string_loop]
  | succ n ih =>
    intro buf bytes pos
    rw [write_bit_string_loop, ih, map_range_shift (byteBit bytes) n pos]
    simp [BitBuffer.write_bit]

theorem write_bit_string_eq (buf : BitBuffer) (bytes : List Nat) (off len : Nat)
    (h : off + len ≤ bytes.length * 8) :
    write_bit_string buf bytes off len
      = (⟨buf.bits ++ (List.range len).map (fun k => byteBit bytes (off + k)), buf.read_pos⟩,
         none) := by
  rw [write_bit_string, if_neg (by omega), write_bit_string_loop_spec]

theorem write_bit_string_till_end_eq (buf : BitBuffer) (bytes : List Nat) (off : Nat)
    (h : off ≤ bytes.length * 8) :
    write_bit_string_till_end buf bytes off
      = (⟨buf.bits ++ (List.range (bytes.length * 8 - off)).map (fun k => byteBit bytes (off + k)),
          buf.read_pos⟩, none) := by
  rw [write_bit_string_till_end, write_bit_string_eq buf bytes off _ (by omega)]

end Uper

namespace Uper

/-! ### Read-loop characterisation -/

theorem setBitInBytes_oob (bs : List Nat) (pos : Nat) (b : Bool) (h : bs.length ≤ pos / 8) :
    setBitInBytes bs pos b = bs :=
  List.set_eq_of_length_le h

theorem read_bit_lt (buf : BitBuffer) (h : buf.read_pos < buf.bits.length) :
    buf.read_bit = ({ buf with read_pos := buf.read_pos + 1 },
      .ok (buf.bits.getD buf.read_pos false)) := by
  rw [BitBuffer.read_bit, dif_pos h]
  simp [List.get_eq_getElem, List.getD_eq_getElem?_getD, List.getElem?_eq_getElem h]

theorem read_bit_ge (buf : BitBuffer) (h : buf.bits.length ≤ buf.read_pos) :
    buf.read_bit = (buf, .error .EndOfStream) := by
  rw [BitBuffer.read_bit, dif_neg (by omega)]

theorem read_bit_string_loop_err (n : Nat) :
    ∀ (buf : BitBuffer) (dst : List Nat) (pos : Nat) (buf' : BitBuffer) (dst' : List Nat)
      (e : Error),
    read_bit_string_loop buf dst pos n = (buf', dst', some e) → e = .EndOfStream := by
  induction n with
  | zero =>
    intro buf dst pos buf' dst' e h
    simp [read_bit_string_loop] at h
  | succ n ih =>
    intro buf dst pos buf' dst' e h
    rw [read_bit_string_loop] at h
    by_cases hlt : buf.read_pos < buf.bits.length
    · rw [read_bit_lt buf hlt] at h
      exact ih _ _ _ _ _ _ h
    · rw [read_bit_ge buf (by omega)] at h
      simp only [Prod.mk.injEq, Option.some.injEq] at h
      exact h.2.2.symm

theorem read_bit_string_loop_none_le (n : Nat) :
    ∀ (buf : BitBuffer) (dst : List Nat) (pos : Nat) (buf' : BitBuffer) (dst' : List Nat),
    read_bit_string_loop buf dst pos n = (buf', dst', none) →
    n ≤ buf.bits.length - buf.read_pos := by
  induction n with
  | zero => intro buf dst pos buf' dst' _; omega
  | succ n ih =>
    intro buf dst pos buf' dst' h
    rw [read_bit_string_loop] at h
    by_cases hlt : buf.read_pos < buf.bits.length
    · rw [read_bit_lt buf hlt] at h
      have := ih _ _ _ _ _ h
      simp only [] at this
      omega
    · rw [read_bit_ge buf (by omega)] at h
      simp at h

theorem read_bit_string_loop_spec (n : Nat) :
    ∀ (buf : BitBuffer) (dst : List Nat) (pos : Nat),
    (buf.read_pos + n ≤ buf.bits.length ∨ n = 0) →
    ∃ dst',
      read_bit_string_loop buf dst pos n
        = ({ buf with read_pos := buf.read_pos + n }, dst', none)
      ∧ dst'.length = dst.length
      ∧ (∀ i, byteBit dst' i
            = if pos ≤ i ∧ i < pos + n ∧ i < 8 * dst.length
              then buf.bits.getD (buf.read_pos + (i - pos)) false
              else byteBit dst i)
      ∧ ((∀ x ∈ dst, x < 256) → ∀ x ∈ dst', x < 256) := by
  induction n with
  | zero =>
    intro buf dst pos _
    refine ⟨dst, by simp [read_bit_string_loop], rfl, ?_, fun h => h⟩
    intro i
    rw [if_neg (by omega)]
  | succ n ih =>
    intro buf dst pos hr
    have hlt : buf.read_pos < buf.bits.length := by omega
    have hstep : read_bit_string_loop buf dst pos (n + 1)
        = read_bit_string_loop ⟨buf.bits, buf.read_pos + 1⟩
            (setBitInBytes dst pos (buf.bits.getD buf.read_pos false)) (pos + 1) n := by
      rw [read_bit_string_loop, read_bit_lt buf hlt]
    have hrec : (⟨buf.bits, buf.read_pos + 1⟩ : BitBuffer).read_pos + n
        ≤ (⟨buf.bits, buf.read_pos + 1⟩ : BitBuffer).bits.length ∨ n = 0 := by
      show buf.read_pos + 1 + n ≤ buf.bits.length ∨ n = 0
      omega
    obtain ⟨dst', heq, hlen, hbit, hbound⟩ :=
      ih ⟨buf.bits, buf.read_pos + 1⟩
        (setBitInBytes dst pos (buf.bits.getD buf.read_pos false)) (pos + 1) hrec
    refine ⟨dst', ?_, ?_, ?_, ?_⟩
    · rw [hstep, heq]
      simp only [Prod.mk.injEq, BitBuffer.mk.injEq, and_true, true_and]
      omega
    · rw [hlen, length_setBitInBytes]
    · intro i
      rw [hbit i, length_setBitInBytes]
      by_cases hwin : pos + 1 ≤ i ∧ i < pos + 1 + n ∧ i < 8 * dst.length
      · rw [if_pos hwin, if_pos (by omega)]
        simp only []
        congr 1
        omega
      · rw [if_neg hwin]
        by_cases hpos : i = pos
        · subst hpos
          by_cases hin : i < 8 * dst.length
          · rw [byteBit_setBitInBytes_self dst i _ hin, if_pos (by omega)]
            congr 1
            omega
          · rw [setBitInBytes_oob dst i _ (by omega), if_neg (by omega)]
        · rw [byteBit_setBitInBytes_ne dst pos i _ hpos, if_neg (by omega)]
    · intro hd
      exact hbound (mem_setBitInBytes_lt dst pos _ hd)

theorem read_bit_string_spec (buf : BitBuffer) (dst : List Nat) (off len : Nat)
    (hg : off + len ≤ dst.length * 8)
    (hr : buf.read_pos + len ≤ buf.bits.length ∨ len = 0) :
    ∃ dst',
      read_bit_string buf dst off len = ({ buf with read_pos := buf.read_pos + len }, dst', none)
      ∧ dst'.length = dst.length
      ∧ (∀ i, byteBit dst' i
            = if off ≤ i ∧ i < off + len ∧ i < 8 * dst.length
              then buf.bits.getD (buf.read_pos + (i - off)) false
              else byteBit dst i)
      ∧ ((∀ x ∈ dst, x < 256) → ∀ x ∈ dst', x < 256) := by
  rw [read_bit_string, if_neg (by omega)]
  exact read_bit_string_loop_spec len buf dst off hr

theorem read_bit_string_err (buf : BitBuffer) (dst : List Nat) (off len : Nat)
    (buf' : BitBuffer) (dst' : List Nat) (e : Error)
    (h : read_bit_string buf dst off len = (buf', dst', some e)) :
    e = .InsufficientSpaceInDestinationBuffer ∨ e = .EndOfStream := by
  rw [read_bit_string] at h
  by_cases hg : dst.length * 8 < off ∨ dst.length * 8 < off + len
  · rw [if_pos hg] at h
    simp only [Prod.mk.injEq, Option.some.injEq] at h
    exact Or.inl h.2.2.symm
  · rw [if_neg hg] at h
    exact Or.inr (read_bit_string_loop_err len buf dst off buf' dst' e h)

theorem read_bit_string_none_inv (buf : BitBuffer) (dst : List Nat) (off len : Nat)
    (buf' : BitBuffer) (dst' : List Nat)
    (h : read_bit_string buf dst off len = (buf', dst', none)) :
    off + len ≤ dst.length * 8 ∧ len ≤ buf.bits.length - buf.read_pos := by
  rw [read_bit_string] at h
  by_cases hg : dst.length * 8 < off ∨ dst.length * 8 < off + len
  · rw [if_pos hg] at h
    simp at h
  · rw [if_neg hg] at h
    exact ⟨by omega, read_bit_string_loop_none_le len buf dst off buf' dst' h⟩

end Uper

namespace Uper

/-! ### Machine-integer cast lemmas -/

theorem lz_le_64 (n : Nat) : leadingZeros64 n ≤ 64 := by
  unfold leadingZeros64
  omega

theorem u64_of_i64_eq (x : Int) (h0 : 0 ≤ x) (h1 : x < 2 ^ 64) : u64_of_i64 x = x.toNat := by
  unfold u64_of_i64
  rw [Int.emod_eq_of_lt h0 (by exact_mod_cast h1)]

theorem i64_of_u64_dvd (n : Nat) : (2 ^ 64 : Int) ∣ ((n : Int) - i64_of_u64 n) := by
  unfold i64_of_u64
  split
  · simp
  · exact ⟨1, by ring⟩

theorem i64_of_u64_lb (n : Nat) (h : n < 2 ^ 64) : -(2 ^ 63) ≤ i64_of_u64 n := by
  unfold i64_of_u64
  split
  · omega
  · have : ((n : Int)) < 2 ^ 64 := by exact_mod_cast h
    omega

theorem i64_of_u64_ub (n : Nat) (h : n < 2 ^ 64) : i64_of_u64 n < 2 ^ 63 := by
  unfold i64_of_u64
  split
  · omega
  · have h1 : ((n : Int)) < 2 ^ 64 := by exact_mod_cast h
    omega

theorem i64_of_u64_of_lt (n : Nat) (h : n < 2 ^ 63) : i64_of_u64 n = (n : Int) := by
  unfold i64_of_u64
  rw [if_pos h]

theorem wrap64_eq (x v : Int) (hmod : (2 ^ 64 : Int) ∣ (x - v))
    (h1 : -(2 ^ 63) ≤ v) (h2 : v < 2 ^ 63) : wrap64 x = v := by
  unfold wrap64
  obtain ⟨c, hc⟩ := hmod
  have hx : x = v + 2 ^ 64 * c := by omega
  subst hx
  have hstep : (v + 2 ^ 64 * c + 2 ^ 63) % 2 ^ 64 = (v + 2 ^ 63) % 2 ^ 64 := by
    rw [show v + 2 ^ 64 * c + 2 ^ 63 = v + 2 ^ 63 + 2 ^ 64 * c from by ring,
      Int.add_mul_emod_self_left]
  rw [hstep, Int.emod_eq_of_lt (by omega) (by omega)]
  omega

theorem u64_of_i64_i64_of_u64 (n : Nat) (h : n < 2 ^ 64) : u64_of_i64 (i64_of_u64 n) = n := by
  unfold u64_of_i64 i64_of_u64
  split
  · rw [Int.emod_eq_of_lt (Int.ofNat_nonneg n) (by exact_mod_cast h)]
    exact Int.toNat_natCast n
  · have hn : ((n : Int)) < 2 ^ 64 := by exact_mod_cast h
    have : ((n : Int) - 2 ^ 64) % 2 ^ 64 = (n : Int) % 2 ^ 64 := by
      rw [show (n : Int) - 2 ^ 64 = (n : Int) + 2 ^ 64 * (-1) from by ring,
        Int.add_mul_emod_self_left]
    rw [this, Int.emod_eq_of_lt (Int.ofNat_nonneg n) hn]
    exact Int.toNat_natCast n

/-! ### write_int and read_int specifications -/

theorem write_int_err (buf : BitBuffer) (v L U : Int) (h : v > U ∨ v < L) :
    write_int buf v (L, U) = (buf, some (.ValueNotInRange v L U)) := by
  simp only [write_int]
  rw [if_pos h]

theorem write_int_spec (buf : BitBuffer) (v L U : Int)
    (hL : -(2 ^ 63) ≤ L) (hU : U < 2 ^ 63) (h1 : L ≤ v) (h2 : v ≤ U) :
    write_int buf v (L, U)
      = (⟨buf.bits ++ bitsOfWidth (Nat.size (U - L).toNat) (v - L).toNat, buf.read_pos⟩,
         none) := by
  have hDlt : (U - L : Int) < 2 ^ 64 := by omega
  have hD : u64_of_i64 (U - L) = (U - L).toNat := u64_of_i64_eq _ (by omega) hDlt
  have hv : u64_of_i64 (v - L) = (v - L).toNat := u64_of_i64_eq _ (by omega) (by omega)
  have hDn : (U - L).toNat < 2 ^ 64 := by omega
  have hw : Nat.size (U - L).toNat ≤ 64 := Nat.size_le.mpr hDn
  have hlze : leadingZeros64 (U - L).toNat = 64 - Nat.size (U - L).toNat :=
    leadingZeros64_eq _ hDn
  simp only [write_int]
  rw [if_neg (by omega), hD, hv]
  rw [write_bit_string_till_end_eq _ _ _ (by rw [be_bytes_length]; have := lz_le_64 ((U - L).toNat); omega)]
  have hlist : (List.range ((be_bytes (v - L).toNat).length * 8 - leadingZeros64 (U - L).toNat)).map
      (fun k => byteBit (be_bytes (v - L).toNat) (leadingZeros64 (U - L).toNat + k))
      = bitsOfWidth (Nat.size (U - L).toNat) (v - L).toNat := by
    rw [be_bytes_length, hlze]
    apply List.ext_getElem
    · simp only [List.length_map, List.length_range, bitsOfWidth_length]
      omega
    · intro k hk1 hk2
      rw [List.length_map, List.length_range] at hk1
      simp only [List.getElem_map, List.getElem_range, bitsOfWidth]
      rw [byteBit_be_bytes _ _ (by omega)]
      congr 1
      omega
  rw [hlist]

theorem byteBit_replicate_zero (n i : Nat) : byteBit (List.replicate n (0 : Nat)) i = false := by
  show Nat.testBit ((List.replicate n (0 : Nat)).getD (i / 8) 0) (7 - i % 8) = false
  have h0 : (List.replicate n (0 : Nat)).getD (i / 8) 0 = 0 := by
    rw [List.getD_eq_getElem?_getD, List.getElem?_replicate]
    split <;> rfl
  rw [h0]
  exact Nat.zero_testBit _

theorem read_bits_into_eight (buf : BitBuffer) (w d : Nat) (hw : w ≤ 64) (hd : d < 2 ^ w)
    (hbits : ∀ k, k < w → buf.bits.getD (buf.read_pos + k) false = d.testBit (w - 1 - k))
    (hr : buf.read_pos + w ≤ buf.bits.length ∨ w = 0) :
    read_bit_string_till_end buf (List.replicate 8 0) (64 - w)
      = (⟨buf.bits, buf.read_pos + w⟩, be_bytes d, none) := by
  rw [read_bit_string_till_end]
  have hlen : (List.replicate 8 (0 : Nat)).length * 8 - (64 - w) = w := by simp; omega
  rw [hlen]
  obtain ⟨dst', heq, hlen', hbit, hbound⟩ :=
    read_bit_string_spec buf (List.replicate 8 0) (64 - w) w (by simp; omega) hr
  rw [heq]
  have hdst : dst' = be_bytes d := by
    apply bytes_ext
    · rw [hlen', be_bytes_length]
      simp
    · apply hbound
      intro x hx
      rw [List.eq_of_mem_replicate hx]
      norm_num
    · exact be_bytes_mem_lt d
    · intro i hi
      rw [hlen'] at hi
      simp only [List.length_replicate] at hi
      rw [hbit i, byteBit_be_bytes d i (by omega)]
      by_cases hwin : 64 - w ≤ i ∧ i < 64 - w + w ∧ i < 8 * (List.replicate 8 (0 : Nat)).length
      · rw [if_pos hwin, hbits (i - (64 - w)) (by omega)]
        congr 1
        omega
      · rw [if_neg hwin, byteBit_replicate_zero]
        have hlow : i < 64 - w := by
          simp only [List.length_replicate] at hwin
          omega
        symm
        apply Nat.testBit_lt_two_pow
        calc d < 2 ^ w := hd
          _ ≤ 2 ^ (63 - i) := Nat.pow_le_pow_right (by norm_num) (by omega)
  rw [hdst]

end Uper

namespace Uper

/-! ### read_int specifications -/

theorem u64_of_i64_lt (x : Int) : u64_of_i64 x < 2 ^ 64 := by
  unfold u64_of_i64
  have h := Int.emod_nonneg x (show (2 ^ 64 : Int) ≠ 0 from by norm_num)
  have h2 := Int.emod_lt_of_pos x (show (0 : Int) < 2 ^ 64 from by norm_num)
  omega

theorem read_int_of_till_end (buf : BitBuffer) (L U : Int) (b' : BitBuffer) (dst : List Nat)
    (h : read_bit_string_till_end buf (List.replicate 8 0)
        (leadingZeros64 (u64_of_i64 (U - L))) = (b', dst, none)) :
    read_int buf (L, U) = (b', .ok (wrap64 (i64_of_u64 (read_u64 dst) + L))) := by
  simp only [read_int]
  rw [h]

theorem read_int_of_till_end_err (buf : BitBuffer) (L U : Int) (b' : BitBuffer)
    (dst : List Nat) (e : Error)
    (h : read_bit_string_till_end buf (List.replicate 8 0)
        (leadingZeros64 (u64_of_i64 (U - L))) = (b', dst, some e)) :
    read_int buf (L, U) = (b', .error e) := by
  simp only [read_int]
  rw [h]

theorem read_till_end_8_err (buf : BitBuffer) (off : Nat) (buf' : BitBuffer)
    (dst' : List Nat) (e : Error) (hoff : off ≤ 64)
    (h : read_bit_string_till_end buf (List.replicate 8 0) off = (buf', dst', some e)) :
    e = .EndOfStream := by
  rw [read_bit_string_till_end, read_bit_string, if_neg (by simp; omega)] at h
  exact read_bit_string_loop_err _ _ _ _ _ _ _ h

theorem read_int_err (buf : BitBuffer) (L U : Int) (buf' : BitBuffer) (e : Error)
    (h : read_int buf (L, U) = (buf', .error e)) : e = .EndOfStream := by
  rcases htill : read_bit_string_till_end buf (List.replicate 8 0)
      (leadingZeros64 (u64_of_i64 (U - L))) with ⟨b', dst, oe⟩
  cases oe with
  | none =>
    rw [read_int_of_till_end buf L U b' dst htill] at h
    simp at h
  | some e' =>
    rw [read_int_of_till_end_err buf L U b' dst e' htill] at h
    simp only [Prod.mk.injEq, Except.error.injEq] at h
    rw [← h.2]
    exact read_till_end_8_err buf _ b' dst e' (lz_le_64 _) htill

theorem read_int_spec (buf : BitBuffer) (v L U : Int)
    (hL : -(2 ^ 63) ≤ L) (hU : U < 2 ^ 63) (h1 : L ≤ v) (h2 : v ≤ U)
    (hbits : ∀ k, k < Nat.size (U - L).toNat →
        buf.bits.getD (buf.read_pos + k) false
          = ((v - L).toNat).testBit (Nat.size (U - L).toNat - 1 - k))
    (hr : buf.read_pos + Nat.size (U - L).toNat ≤ buf.bits.length) :
    read_int buf (L, U) = (⟨buf.bits, buf.read_pos + Nat.size (U - L).toNat⟩, .ok v) := by
  have hDlt : (U - L : Int) < 2 ^ 64 := by omega
  have hD : u64_of_i64 (U - L) = (U - L).toNat := u64_of_i64_eq _ (by omega) hDlt
  have hDn : (U - L).toNat < 2 ^ 64 := by omega
  have hw : Nat.size (U - L).toNat ≤ 64 := Nat.size_le.mpr hDn
  have hdlt : (v - L).toNat < 2 ^ Nat.size (U - L).toNat :=
    lt_of_le_of_lt (by omega) (Nat.lt_size_self _)
  have hoff : leadingZeros64 (u64_of_i64 (U - L)) = 64 - Nat.size (U - L).toNat := by
    rw [hD]
    exact leadingZeros64_eq _ hDn
  have htill := read_bits_into_eight buf (Nat.size (U - L).toNat) ((v - L).toNat)
    hw hdlt hbits (Or.inl hr)
  rw [← hoff] at htill
  rw [read_int_of_till_end buf L U _ _ htill]
  have hread : read_u64 (be_bytes (v - L).toNat) = (v - L).toNat := by
    rw [read_u64_be_bytes]
    exact Nat.mod_eq_of_lt (by omega)
  rw [hread]
  have hval : wrap64 (i64_of_u64 (v - L).toNat + L) = v := by
    apply wrap64_eq
    · obtain ⟨c, hc⟩ := i64_of_u64_dvd ((v - L).toNat)
      have hcast : (((v - L).toNat : Int)) = v - L := Int.toNat_of_nonneg (by omega)
      exact ⟨-c, by omega⟩
    · omega
    · omega
  rw [hval]

theorem read_int_ok_inv (buf : BitBuffer) (L U : Int) (buf' : BitBuffer) (v : Int)
    (h : read_int buf (L, U) = (buf', .ok v)) :
    ∃ d : Nat, d < 2 ^ (64 - leadingZeros64 (u64_of_i64 (U - L)))
      ∧ v = wrap64 (i64_of_u64 d + L)
      ∧ buf' = ⟨buf.bits, buf.read_pos + (64 - leadingZeros64 (u64_of_i64 (U - L)))⟩ := by
  rcases htill : read_bit_string_till_end buf (List.replicate 8 0)
      (leadingZeros64 (u64_of_i64 (U - L))) with ⟨b', dst, oe⟩
  cases oe with
  | some e =>
    rw [read_int_of_till_end_err buf L U b' dst e htill] at h
    simp at h
  | none =>
    have hlz64 : leadingZeros64 (u64_of_i64 (U - L)) ≤ 64 := lz_le_64 _
    have hinv := read_bit_string_none_inv buf (List.replicate 8 0)
      (leadingZeros64 (u64_of_i64 (U - L))) _ b' dst
      (by rw [read_bit_string_till_end] at htill; exact htill)
    have hlen : (List.replicate 8 (0 : Nat)).length * 8 - leadingZeros64 (u64_of_i64 (U - L))
        = 64 - leadingZeros64 (u64_of_i64 (U - L)) := by simp
    rw [hlen] at hinv
    set w := 64 - leadingZeros64 (u64_of_i64 (U - L)) with hwdef
    set d := valMSB ((List.range w).map (fun k => buf.bits.getD (buf.read_pos + k) false))
      with hd
    have hseglen : ((List.range w).map (fun k => buf.bits.getD (buf.read_pos + k) false)).length
        = w := by simp
    have hdlt : d < 2 ^ w := by
      have hvl := valMSB_lt ((List.range w).map (fun k => buf.bits.getD (buf.read_pos + k) false))
      rw [hseglen] at hvl
      exact hvl
    have hbits : ∀ k, k < w →
        buf.bits.getD (buf.read_pos + k) false = d.testBit (w - 1 - k) := by
      intro k hk
      have hround := bitsOfWidth_valMSB
        ((List.range w).map (fun k => buf.bits.getD (buf.read_pos + k) false))
      rw [hseglen] at hround
      have h2 := congrArg (fun l => l.getD k false) hround
      simp only [] at h2
      rw [getD_bitsOfWidth w _ k hk] at h2
      have h3 : ((List.range w).map (fun k => buf.bits.getD (buf.read_pos + k) false)).getD k false
          = buf.bits.getD (buf.read_pos + k) false := by
        simp [List.getD_eq_getElem?_getD, List.getElem?_map, List.getElem?_range hk]
      rw [← h3]
      exact h2.symm
    have hrem : buf.read_pos + w ≤ buf.bits.length ∨ w = 0 := by omega
    have heq2 := read_bits_into_eight buf w d (by omega) hdlt hbits hrem
    rw [show 64 - w = leadingZeros64 (u64_of_i64 (U - L)) from by omega] at heq2
    rw [htill] at heq2
    simp only [Prod.mk.injEq] at heq2
    obtain ⟨hb', hdst, -⟩ := heq2
    rw [read_int_of_till_end buf L U b' dst htill] at h
    simp only [Prod.mk.injEq, Except.ok.injEq] at h
    obtain ⟨hbuf', hv⟩ := h
    refine ⟨d, hdlt, ?_, ?_⟩
    · rw [← hv, hdst, read_u64_be_bytes,
        Nat.mod_eq_of_lt (lt_of_lt_of_le hdlt (Nat.pow_le_pow_right (by norm_num) (by omega)))]
    · rw [← hbuf', hb']

end Uper

namespace Uper

theorem size_eq_clog (n : Nat) : Nat.size n = Nat.clog 2 (n + 1) := by
  apply le_antisymm
  · rw [Nat.size_le]
    have h := (Nat.le_pow_iff_clog_le (by norm_num : 1 < 2)).mpr
      (le_refl (Nat.clog 2 (n + 1)))
    omega
  · rw [← Nat.le_pow_iff_clog_le (by norm_num : 1 < 2)]
    have := Nat.lt_size_self n
    omega

theorem write_int_fresh (v L U : Int)
    (hL : -(2 ^ 63) ≤ L) (hU : U < 2 ^ 63) (h1 : L ≤ v) (h2 : v ≤ U) :
    write_int (BitBuffer.mk [] 0) v (L, U)
      = (BitBuffer.mk (bitsOfWidth (Nat.size (U - L).toNat) (v - L).toNat) 0, none) := by
  rw [write_int_spec (BitBuffer.mk [] 0) v L U hL hU h1 h2]
  rfl

theorem read_int_of_exact (v L U : Int)
    (hL : -(2 ^ 63) ≤ L) (hU : U < 2 ^ 63) (h1 : L ≤ v) (h2 : v ≤ U) :
    read_int (BitBuffer.mk (bitsOfWidth (Nat.size (U - L).toNat) (v - L).toNat) 0) (L, U)
      = (BitBuffer.mk (bitsOfWidth (Nat.size (U - L).toNat) (v - L).toNat)
          (Nat.size (U - L).toNat), .ok v) := by
  have h := read_int_spec
    (BitBuffer.mk (bitsOfWidth (Nat.size (U - L).toNat) (v - L).toNat) 0) v L U hL hU h1 h2
    (by
      intro k hk
      show (bitsOfWidth (Nat.size (U - L).toNat) (v - L).toNat).getD (0 + k) false = _
      rw [Nat.zero_add, getD_bitsOfWidth _ _ _ hk])
    (by
      show 0 + Nat.size (U - L).toNat ≤ (bitsOfWidth (Nat.size (U - L).toNat) (v - L).toNat).length
      rw [bitsOfWidth_length]
      omega)
  rw [h]
  norm_num

/-- Claim C1: for every i64 range `(L, U)` with `L ≤ U` and every value
`L ≤ v ≤ U`, writing `v` with `write_int` into a fresh empty buffer and then
reading with `read_int` over the same range succeeds, yields exactly `v`, and
leaves the reader with zero bits remaining. -/
theorem c1_write_read_int_roundtrip (L U v : Int)
    (hL : -(2 ^ 63) ≤ L) (hU : U < 2 ^ 63) (h1 : L ≤ v) (h2 : v ≤ U) :
    (write_int (BitBuffer.mk [] 0) v (L, U)).2 = none
    ∧ (read_int (write_int (BitBuffer.mk [] 0) v (L, U)).1 (L, U)).2 = .ok v
    ∧ (read_int (write_int (BitBuffer.mk [] 0) v (L, U)).1 (L, U)).1.bits_remaining = 0 := by
  rw [write_int_fresh v L U hL hU h1 h2]
  rw [show (((BitBuffer.mk (bitsOfWidth (Nat.size (U - L).toNat) (v - L).toNat) 0), none) :
      BitBuffer × Option Error).1
    = BitBuffer.mk (bitsOfWidth (Nat.size (U - L).toNat) (v - L).toNat) 0 from rfl]
  rw [read_int_of_exact v L U hL hU h1 h2]
  refine ⟨rfl, rfl, ?_⟩
  show (bitsOfWidth (Nat.size (U - L).toNat) (v - L).toNat).length
      - Nat.size (U - L).toNat = 0
  rw [bitsOfWidth_length]
  omega

/-- Claim C1 witness: the round trip at range `(1, 4)`, value `2`. -/
theorem c1_witness :
    (write_int (BitBuffer.mk [] 0) 2 (1, 4)).2 = none
    ∧ (read_int (write_int (BitBuffer.mk [] 0) 2 (1, 4)).1 (1, 4)).2 = .ok 2
    ∧ (read_int (write_int (BitBuffer.mk [] 0) 2 (1, 4)).1 (1, 4)).1.bits_remaining = 0 :=
  c1_write_read_int_roundtrip 1 4 2 (by norm_num) (by norm_num) (by norm_num) (by norm_num)

/-- Claim C6: for every i64 range `(L, U)` with `L ≤ U` and in-range value,
`write_int` appends exactly `64 − leading_zeros((U − L) as u64)` bits, which
equals `ceil(log2(U − L + 1))`; in particular zero bits when `L = U`. -/
theorem c6_write_int_width (buf : BitBuffer) (L U v : Int)
    (hL : -(2 ^ 63) ≤ L) (hU : U < 2 ^ 63) (h1 : L ≤ v) (h2 : v ≤ U) :
    (write_int buf v (L, U)).1.bit_len
        = buf.bit_len + (64 - leadingZeros64 (u64_of_i64 (U - L)))
    ∧ 64 - leadingZeros64 (u64_of_i64 (U - L)) = Nat.clog 2 ((U - L).toNat + 1)
    ∧ (L = U → (write_int buf v (L, U)).1.bit_len = buf.bit_len) := by
  have hDlt : (U - L : Int) < 2 ^ 64 := by omega
  have hD : u64_of_i64 (U - L) = (U - L).toNat := u64_of_i64_eq _ (by omega) hDlt
  have hDn : (U - L).toNat < 2 ^ 64 := by omega
  have hw : Nat.size (U - L).toNat ≤ 64 := Nat.size_le.mpr hDn
  have hlz : leadingZeros64 (u64_of_i64 (U - L)) = 64 - Nat.size (U - L).toNat := by
    rw [hD]
    exact leadingZeros64_eq _ hDn
  have hspec := write_int_spec buf v L U hL hU h1 h2
  have hlen : (write_int buf v (L, U)).1.bit_len
      = buf.bit_len + Nat.size (U - L).toNat := by
    rw [hspec]
    show (buf.bits ++ bitsOfWidth (Nat.size (U - L).toNat) (v - L).toNat).length = _
    rw [List.length_append, bitsOfWidth_length]
    rfl
  refine ⟨?_, ?_, ?_⟩
  · rw [hlen, hlz]
    omega
  · rw [hlz, size_eq_clog]
    rw [size_eq_clog] at hw
    omega
  · intro hEq
    subst hEq
    rw [hlen]
    simp [Nat.size_zero]

/-- Claim C6 witness: two bits are appended for range `(1, 4)`, value `2`. -/
theorem c6_witness :
    (write_int (BitBuffer.mk [] 0) 2 (1, 4)).1.bit_len
        = (BitBuffer.mk [] 0).bit_len + (64 - leadingZeros64 (u64_of_i64 (4 - 1)))
    ∧ 64 - leadingZeros64 (u64_of_i64 (4 - 1)) = Nat.clog 2 (((4 : Int) - 1).toNat + 1)
    ∧ ((1 : Int) = 4 →
        (write_int (BitBuffer.mk [] 0) 2 (1, 4)).1.bit_len = (BitBuffer.mk [] 0).bit_len) :=
  c6_write_int_width (BitBuffer.mk [] 0) 1 4 2 (by norm_num) (by norm_num) (by norm_num)
    (by norm_num)

end Uper

namespace Uper

/-! ### Length-determinant specifications -/

theorem size_of_bounds (n a : Nat) (h1 : 2 ^ a ≤ n) (h2 : n < 2 ^ (a + 1)) :
    Nat.size n = a + 1 := by
  apply le_antisymm (Nat.size_le.mpr h2)
  have := Nat.lt_size.mpr h1
  omega

theorem size_127 : Nat.size 127 = 7 := size_of_bounds 127 6 (by norm_num) (by norm_num)

theorem size_16383 : Nat.size 16383 = 14 := size_of_bounds 16383 13 (by norm_num) (by norm_num)

theorem u64_of_i64_natCast (n : Nat) (h : n < 2 ^ 64) : u64_of_i64 (n : Int) = n := by
  rw [u64_of_i64_eq _ (Int.ofNat_nonneg n) (by exact_mod_cast h), Int.toNat_natCast]

theorem getD_append_at {α : Type} (pre l post : List α) (d : α) (k : Nat) (hk : k < l.length) :
    (pre ++ (l ++ post)).getD (pre.length + k) d = l.getD k d := by
  rw [List.getD_append_right _ _ _ _ (by omega), Nat.add_sub_cancel_left,
    List.getD_append _ _ _ _ hk]

theorem write_length_determinant_spec1 (buf : BitBuffer) (n : Nat) (hn : n ≤ 127) :
    write_length_determinant buf n
      = (⟨buf.bits ++ false :: bitsOfWidth 7 n, buf.read_pos⟩, none) := by
  have hcast : i64_of_u64 n = (n : Int) := i64_of_u64_of_lt n (by omega)
  simp only [write_length_determinant, UPER_LENGTH_DET_L1]
  rw [if_pos hn, hcast]
  rw [write_int_spec (buf.write_bit false) (n : Int) 0 127 (by norm_num) (by norm_num)
    (Int.ofNat_nonneg n) (by exact_mod_cast hn)]
  rw [show ((127 : Int) - 0).toNat = 127 from by decide, size_127,
    show (((n : Int)) - 0).toNat = n from by omega]
  simp [BitBuffer.write_bit, List.append_assoc]

theorem write_length_determinant_spec2 (buf : BitBuffer) (n : Nat)
    (hn1 : 128 ≤ n) (hn2 : n ≤ 16383) :
    write_length_determinant buf n
      = (⟨buf.bits ++ true :: false :: bitsOfWidth 14 n, buf.read_pos⟩, none) := by
  have hcast : i64_of_u64 n = (n : Int) := i64_of_u64_of_lt n (by omega)
  simp only [write_length_determinant, UPER_LENGTH_DET_L1, UPER_LENGTH_DET_L2]
  rw [if_neg (by omega), if_pos hn2, hcast]
  rw [write_int_spec ((buf.write_bit true).write_bit false) (n : Int) 0 16383 (by norm_num)
    (by norm_num) (Int.ofNat_nonneg n) (by exact_mod_cast hn2)]
  rw [show ((16383 : Int) - 0).toNat = 16383 from by decide, size_16383,
    show (((n : Int)) - 0).toNat = n from by omega]
  simp [BitBuffer.write_bit, List.append_assoc]

theorem write_length_determinant_err (buf : BitBuffer) (n : Nat) (h : 16384 ≤ n) :
    write_length_determinant buf n
      = (buf, some (.UnsupportedOperation
          "Writing length determinant for lengths > 16383 is unsupported")) := by
  simp only [write_length_determinant]
  rw [if_neg (by omega), if_neg (by omega)]

theorem read_length_determinant_spec1 (buf : BitBuffer) (n : Nat) (hn : n ≤ 127)
    (hb0 : buf.bits.getD buf.read_pos false = false)
    (hbits : ∀ k, k < 7 → buf.bits.getD (buf.read_pos + 1 + k) false = n.testBit (6 - k))
    (hr : buf.read_pos + 8 ≤ buf.bits.length) :
    read_length_determinant buf = (⟨buf.bits, buf.read_pos + 8⟩, .ok n) := by
  have hrb := read_bit_lt buf (by omega)
  have hri := read_int_spec (BitBuffer.mk buf.bits (buf.read_pos + 1)) (n : Int) 0 127
    (by norm_num) (by norm_num) (Int.ofNat_nonneg n) (by exact_mod_cast hn)
    (by
      intro k hk
      rw [show ((127 : Int) - 0).toNat = 127 from by decide, size_127] at hk ⊢
      rw [show (((n : Int)) - 0).toNat = n from by omega]
      show buf.bits.getD (buf.read_pos + 1 + k) false = n.testBit (7 - 1 - k)
      exact hbits k hk)
    (by
      rw [show ((127 : Int) - 0).toNat = 127 from by decide, size_127]
      show buf.read_pos + 1 + 7 ≤ buf.bits.length
      omega)
  rw [show ((127 : Int) - 0).toNat = 127 from by decide, size_127] at hri
  have hstage : read_length_determinant buf
      = match read_int (BitBuffer.mk buf.bits (buf.read_pos + 1)) (0, (127 : Int)) with
        | (buf2, .ok v) => (buf2, .ok (u64_of_i64 v))
        | (buf2, .error e) => (buf2, .error e) := by
    simp only [read_length_determinant]
    rw [hrb, hb0]
    rfl
  rw [hstage, hri]
  show ((BitBuffer.mk buf.bits (buf.read_pos + 1 + 7)), Except.ok (u64_of_i64 ((n : Int))))
      = ((BitBuffer.mk buf.bits (buf.read_pos + 8)), Except.ok n)
  rw [u64_of_i64_natCast n (by omega),
    show buf.read_pos + 1 + 7 = buf.read_pos + 8 from by omega]

theorem read_length_determinant_spec2 (buf : BitBuffer) (n : Nat) (hn : n ≤ 16383)
    (hb0 : buf.bits.getD buf.read_pos false = true)
    (hb1 : buf.bits.getD (buf.read_pos + 1) false = false)
    (hbits : ∀ k, k < 14 → buf.bits.getD (buf.read_pos + 2 + k) false = n.testBit (13 - k))
    (hr : buf.read_pos + 16 ≤ buf.bits.length) :
    read_length_determinant buf = (⟨buf.bits, buf.read_pos + 16⟩, .ok n) := by
  have hrb := read_bit_lt buf (by omega)
  have hrb1 := read_bit_lt (BitBuffer.mk buf.bits (buf.read_pos + 1))
    (show buf.read_pos + 1 < buf.bits.length from by omega)
  have hri := read_int_spec (BitBuffer.mk buf.bits (buf.read_pos + 2)) (n : Int) 0 16383
    (by norm_num) (by norm_num) (Int.ofNat_nonneg n) (by exact_mod_cast hn)
    (by
      intro k hk
      rw [show ((16383 : Int) - 0).toNat = 16383 from by decide, size_16383] at hk ⊢
      rw [show (((n : Int)) - 0).toNat = n from by omega]
      show buf.bits.getD (buf.read_pos + 2 + k) false = n.testBit (14 - 1 - k)
      exact hbits k hk)
    (by
      rw [show ((16383 : Int) - 0).toNat = 16383 from by decide, size_16383]
      show buf.read_pos + 2 + 14 ≤ buf.bits.length
      omega)
  rw [show ((16383 : Int) - 0).toNat = 16383 from by decide, size_16383] at hri
  have hstage : read_length_determinant buf
      = match (BitBuffer.mk buf.bits (buf.read_pos + 1)).read_bit with
        | (buf2, .error e) => (buf2, .error e)
        | (buf2, .ok b2) =>
          if b2 = false then
            match read_int buf2 (0, (16383 : Int)) with
            | (buf3, .ok v) => (buf3, .ok (u64_of_i64 v))
            | (buf3, .error e) => (buf3, .error e)
          else
            (buf2, .error (.UnsupportedOperation
              "Cannot read length determinant for other than i8 and i16")) := by
    simp only [read_length_determinant]
    rw [hrb, hb0]
    rfl
  have hstage2 : (match (BitBuffer.mk buf.bits (buf.read_pos + 1)).read_bit with
        | (buf2, Except.error e) => ((buf2, Except.error e) : BitBuffer × Except Error Nat)
        | (buf2, Except.ok b2) =>
          if b2 = false then
            match read_int buf2 (0, (16383 : Int)) with
            | (buf3, Except.ok v) => (buf3, Except.ok (u64_of_i64 v))
            | (buf3, Except.error e) => (buf3, Except.error e)
          else
            (buf2, Except.error (Error.UnsupportedOperation
              "Cannot read length determinant for other than i8 and i16")))
      = match read_int (BitBuffer.mk buf.bits (buf.read_pos + 2)) (0, (16383 : Int)) with
        | (buf3, Except.ok v) => (buf3, Except.ok (u64_of_i64 v))
        | (buf3, Except.error e) => (buf3, Except.error e) := by
    rw [hrb1, hb1]
    rfl
  rw [hstage, hstage2, hri]
  show ((BitBuffer.mk buf.bits (buf.read_pos + 2 + 14)), Except.ok (u64_of_i64 ((n : Int))))
      = ((BitBuffer.mk buf.bits (buf.read_pos + 16)), Except.ok n)
  rw [u64_of_i64_natCast n (by omega),
    show buf.read_pos + 2 + 14 = buf.read_pos + 16 from by omega]

theorem read_length_determinant_unsupported (buf : BitBuffer)
    (hb0 : buf.bits.getD buf.read_pos false = true)
    (hb1 : buf.bits.getD (buf.read_pos + 1) false = true)
    (hr : buf.read_pos + 2 ≤ buf.bits.length) :
    read_length_determinant buf
      = (⟨buf.bits, buf.read_pos + 2⟩, .error (.UnsupportedOperation
          "Cannot read length determinant for other than i8 and i16")) := by
  have hrb := read_bit_lt buf (by omega)
  have hrb1 := read_bit_lt (BitBuffer.mk buf.bits (buf.read_pos + 1))
    (show buf.read_pos + 1 < buf.bits.length from by omega)
  have hstage : read_length_determinant buf
      = match (BitBuffer.mk buf.bits (buf.read_pos + 1)).read_bit with
        | (buf2, .error e) => (buf2, .error e)
        | (buf2, .ok b2) =>
          if b2 = false then
            match read_int buf2 (0, (16383 : Int)) with
            | (buf3, .ok v) => (buf3, .ok (u64_of_i64 v))
            | (buf3, .error e) => (buf3, .error e)
          else
            (buf2, .error (.UnsupportedOperation
              "Cannot read length determinant for other than i8 and i16")) := by
    simp only [read_length_determinant]
    rw [hrb, hb0]
    rfl
  rw [hstage, hrb1, hb1]
  rfl

end Uper

namespace Uper

/-- Claim C4: `write_length_determinant` emits exactly 8 bits for lengths
0..127, exactly 16 bits for lengths 128..16383, and fails with
`UnsupportedOperation` from 16384 on; `read_length_determinant` on a `1,1`
two-bit prefix also fails with `UnsupportedOperation`. -/
theorem c4_length_determinant_boundaries :
    (∀ (buf : BitBuffer) (n : Nat), n ≤ 127 →
        (write_length_determinant buf n).1.bit_len = buf.bit_len + 8
        ∧ (write_length_determinant buf n).2 = none)
    ∧ (∀ (buf : BitBuffer) (n : Nat), 128 ≤ n → n ≤ 16383 →
        (write_length_determinant buf n).1.bit_len = buf.bit_len + 16
        ∧ (write_length_determinant buf n).2 = none)
    ∧ (∀ (buf : BitBuffer) (n : Nat), 16384 ≤ n →
        ∃ msg, write_length_determinant buf n = (buf, some (.UnsupportedOperation msg)))
    ∧ (∀ buf : BitBuffer, buf.bits.getD buf.read_pos false = true →
        buf.bits.getD (buf.read_pos + 1) false = true →
        buf.read_pos + 2 ≤ buf.bits.length →
        ∃ msg, (read_length_determinant buf).2 = .error (.UnsupportedOperation msg)) := by
  refine ⟨?_, ?_, ?_, ?_⟩
  · intro buf n hn
    rw [write_length_determinant_spec1 buf n hn]
    constructor
    · show (buf.bits ++ false :: bitsOfWidth 7 n).length = buf.bits.length + 8
      rw [List.length_append, List.length_cons, bitsOfWidth_length]
    · rfl
  · intro buf n hn1 hn2
    rw [write_length_determinant_spec2 buf n hn1 hn2]
    constructor
    · show (buf.bits ++ true :: false :: bitsOfWidth 14 n).length = buf.bits.length + 16
      rw [List.length_append, List.length_cons, List.length_cons, bitsOfWidth_length]
    · rfl
  · intro buf n hn
    exact ⟨_, write_length_determinant_err buf n hn⟩
  · intro buf hb0 hb1 hr
    rw [read_length_determinant_unsupported buf hb0 hb1 hr]
    exact ⟨_, rfl⟩

/-- Claim C4 witness: boundary lengths 127, 128, 16384 and a `1,1` prefix. -/
theorem c4_witness :
    (write_length_determinant (BitBuffer.mk [] 0) 127).1.bit_len = 8
    ∧ (write_length_determinant (BitBuffer.mk [] 0) 128).1.bit_len = 16
    ∧ (∃ msg, write_length_determinant (BitBuffer.mk [] 0) 16384
        = (BitBuffer.mk [] 0, some (.UnsupportedOperation msg)))
    ∧ (∃ msg, (read_length_determinant (BitBuffer.mk [true, true] 0)).2
        = .error (.UnsupportedOperation msg)) := by
  have h := c4_length_determinant_boundaries
  refine ⟨?_, ?_, ?_, ?_⟩
  · exact (h.1 (BitBuffer.mk [] 0) 127 (by norm_num)).1
  · exact (h.2.1 (BitBuffer.mk [] 0) 128 (by norm_num) (by norm_num)).1
  · exact h.2.2.1 (BitBuffer.mk [] 0) 16384 (by norm_num)
  · exact h.2.2.2 (BitBuffer.mk [true, true] 0) (by decide) (by decide) (by decide)

end Uper

namespace Uper

/-! ### write_int_max specifications -/

theorem stripLen_le (bytes : List Nat) : ∀ n, stripLen bytes n ≤ n := by
  intro n
  induction n with
  | zero => simp [stripLen]
  | succ n ih =>
    rw [stripLen]
    split
    · omega
    · omega

theorem stripLen_zeros (bytes : List Nat) :
    ∀ n, ∀ j, bytes.length - n ≤ j → j < bytes.length - stripLen bytes n →
      bytes.getD j 0 = 0 := by
  intro n
  induction n with
  | zero =>
    intro j h1 h2
    omega
  | succ n ih =>
    intro j h1 h2
    rw [stripLen] at h2
    by_cases hz : bytes.getD (bytes.length - (n + 1)) 0 = 0
    · rw [if_pos hz] at h2
      by_cases hj : j = bytes.length - (n + 1)
      · rw [hj]
        exact hz
      · have hs := stripLen_le bytes n
        exact ih j (by omega) h2
    · rw [if_neg hz] at h2
      omega

theorem zero_digits_bound (s : Nat) :
    ∀ t x, x < 256 ^ (s + t) → (∀ i, i < t → x / 256 ^ (s + i) % 256 = 0) → x < 256 ^ s := by
  intro t
  induction t with
  | zero =>
    intro x h _
    simpa using h
  | succ t ih =>
    intro x h hdig
    apply ih x
    · have htop : x / 256 ^ (s + t) % 256 = 0 := hdig t (by omega)
      have hlt : x / 256 ^ (s + t) < 256 := by
        rw [Nat.div_lt_iff_lt_mul (Nat.pos_pow_of_pos _ (by norm_num))]
        calc x < 256 ^ (s + (t + 1)) := h
          _ = 256 * 256 ^ (s + t) := by
              rw [show s + (t + 1) = (s + t) + 1 from by omega, pow_succ']
      have hz : x / 256 ^ (s + t) = 0 := by
        rw [← Nat.mod_eq_of_lt hlt, htop]
      exact (Nat.div_eq_zero_iff (Nat.pos_pow_of_pos _ (by norm_num))).mp hz
    · intro i hi
      exact hdig i (by omega)

theorem write_int_max_bound (v : Nat) (hv : v < 2 ^ 64) :
    v < 2 ^ (8 * max (stripLen (be_bytes v) 8) 1) := by
  set s := stripLen (be_bytes v) 8 with hs
  have hsle : s ≤ 8 := stripLen_le (be_bytes v) 8
  have hzeros : ∀ j, j < 8 - s → (be_bytes v).getD j 0 = 0 := by
    intro j hj
    apply stripLen_zeros (be_bytes v) 8 j
    · rw [be_bytes_length]
      omega
    · rw [be_bytes_length]
      omega
  have hvs : v < 2 ^ (8 * s) := by
    have h256 : (2 : Nat) ^ (8 * s) = 256 ^ s := by
      rw [show (256 : Nat) = 2 ^ 8 from by norm_num, ← pow_mul]
    rw [h256]
    apply zero_digits_bound s (8 - s) v
    · have : 256 ^ (s + (8 - s)) = 256 ^ 8 := by
        congr 1
        omega
      rw [this]
      calc v < 2 ^ 64 := hv
        _ = 256 ^ 8 := by norm_num
    · intro i hi
      have hj : 7 - (s + i) < 8 - s := by omega
      have := hzeros (7 - (s + i)) hj
      rw [getD_be_bytes v _ (by omega)] at this
      rw [show 8 * (7 - (7 - (s + i))) = 8 * (s + i) from by congr 1; omega] at this
      rw [show (256 : Nat) ^ (s + i) = 2 ^ (8 * (s + i)) from by
        rw [show (256 : Nat) = 2 ^ 8 from by norm_num, ← pow_mul]]
      exact this
  calc v < 2 ^ (8 * s) := hvs
    _ ≤ 2 ^ (8 * max s 1) := Nat.pow_le_pow_right (by norm_num) (by omega)

theorem write_int_max_spec (buf : BitBuffer) (v : Nat) (hv : v ≤ 2 ^ 63 - 1) :
    write_int_max buf v
      = (⟨buf.bits ++ (false :: bitsOfWidth 7 (max (stripLen (be_bytes v) 8) 1))
            ++ bitsOfWidth (8 * max (stripLen (be_bytes v) 8) 1) v, buf.read_pos⟩, none) := by
  set l := max (stripLen (be_bytes v) 8) 1 with hldef
  have hl1 : 1 ≤ l := by omega
  have hl8 : l ≤ 8 := by
    have := stripLen_le (be_bytes v) 8
    omega
  simp only [write_int_max]
  rw [if_neg (by omega), ← hldef]
  rw [write_length_determinant_spec1 buf l (by omega)]
  show write_bit_string_till_end
      (BitBuffer.mk (buf.bits ++ false :: bitsOfWidth 7 l) buf.read_pos)
      (be_bytes v) ((8 - l) * 8) = _
  rw [write_bit_string_till_end_eq _ _ _ (by rw [be_bytes_length]; omega)]
  have hlist : (List.range ((be_bytes v).length * 8 - (8 - l) * 8)).map
      (fun k => byteBit (be_bytes v) ((8 - l) * 8 + k)) = bitsOfWidth (8 * l) v := by
    rw [be_bytes_length]
    apply List.ext_getElem
    · simp [bitsOfWidth_length]
      omega
    · intro k h1 h2
      rw [List.length_map, List.length_range] at h1
      simp only [List.getElem_map, List.getElem_range, bitsOfWidth]
      rw [byteBit_be_bytes _ _ (by omega)]
      congr 1
      omega
  rw [hlist]

end Uper

namespace Uper

/-! ### write_int_normally_small specifications -/

theorem write_int_normally_small_spec_small (buf : BitBuffer) (v : Nat) (hv : v ≤ 63) :
    write_int_normally_small buf v
      = (⟨buf.bits ++ false :: bitsOfWidth 6 v, buf.read_pos⟩, none) := by
  simp only [write_int_normally_small]
  rw [if_pos hv]
  have hdrop : (be_bytes v).drop 7 = [v % 256] := by
    rw [be_bytes, show List.range 8 = [0, 1, 2, 3, 4, 5, 6, 7] from by rfl]
    simp
  rw [hdrop]
  rw [write_bit_string_eq _ _ _ _ (by simp)]
  have hlist : (List.range 6).map (fun k => byteBit [v % 256] (2 + k)) = bitsOfWidth 6 v := by
    apply List.ext_getElem
    · simp [bitsOfWidth_length]
    · intro k h1 h2
      rw [List.length_map, List.length_range] at h1
      simp only [List.getElem_map, List.getElem_range, bitsOfWidth]
      rw [byteBit_cons_lt _ _ _ (by omega)]
      rw [show (256 : Nat) = 2 ^ 8 from by norm_num, Nat.testBit_mod_two_pow]
      have he : 7 - (2 + k) = 6 - 1 - k := by omega
      simp [he, show 6 - 1 - k < 8 from by omega]
  rw [hlist]
  simp [BitBuffer.write_bit, List.append_assoc]

theorem write_int_normally_small_spec_big (buf : BitBuffer) (v : Nat)
    (h1 : 64 ≤ v) (h2 : v ≤ 2 ^ 63 - 1) :
    write_int_normally_small buf v
      = (⟨buf.bits ++ (true :: (false :: bitsOfWidth 7 (max (stripLen (be_bytes v) 8) 1))
            ++ bitsOfWidth (8 * max (stripLen (be_bytes v) 8) 1) v), buf.read_pos⟩, none) := by
  simp only [write_int_normally_small]
  rw [if_neg (by omega)]
  rw [write_int_max_spec (buf.write_bit true) v h2]
  simp [BitBuffer.write_bit, List.append_assoc]

theorem write_int_normally_small_err (buf : BitBuffer) (v : Nat) (h : 2 ^ 63 ≤ v) :
    write_int_normally_small buf v
      = (⟨buf.bits ++ [true], buf.read_pos⟩,
         some (.ValueNotInRange (i64_of_u64 v) 0 (2 ^ 63 - 1))) := by
  simp only [write_int_normally_small]
  rw [if_neg (by omega)]
  simp only [write_int_max]
  rw [if_pos (by omega)]
  rfl

/-- Claim C5: `write_int_normally_small` emits exactly 7 bits (a `0` prefix
and the low six bits MSB-first) for every value 0..63, and exactly 17 bits
for value 64: prefix `1`, the 8-bit length determinant for one octet, and
the octet `0b01000000`. -/
theorem c5_normally_small_boundary (buf : BitBuffer) (v : Nat) (hv : v ≤ 63) :
    write_int_normally_small buf v
      = (⟨buf.bits ++ false :: bitsOfWidth 6 v, buf.read_pos⟩, none)
    ∧ (write_int_normally_small buf v).1.bit_len = buf.bit_len + 7
    ∧ write_int_normally_small buf 64
      = (⟨buf.bits ++ [true, false, false, false, false, false, false, false, true,
          false, true, false, false, false, false, false, false], buf.read_pos⟩, none)
    ∧ (write_int_normally_small buf 64).1.bit_len = buf.bit_len + 17 := by
  have hsmall := write_int_normally_small_spec_small buf v hv
  have h64 := write_int_normally_small_spec_big buf 64 (by norm_num) (by norm_num)
  have hlists : (true :: (false :: bitsOfWidth 7 (max (stripLen (be_bytes 64) 8) 1))
        ++ bitsOfWidth (8 * max (stripLen (be_bytes 64) 8) 1) 64)
      = [true, false, false, false, false, false, false, false, true,
         false, true, false, false, false, false, false, false] := by decide
  rw [hlists] at h64
  refine ⟨hsmall, ?_, h64, ?_⟩
  · rw [hsmall]
    show (buf.bits ++ false :: bitsOfWidth 6 v).length = buf.bits.length + 7
    rw [List.length_append, List.length_cons, bitsOfWidth_length]
  · rw [h64]
    show (buf.bits ++ [true, false, false, false, false, false, false, false, true,
        false, true, false, false, false, false, false, false]).length = buf.bits.length + 17
    rw [List.length_append]
    rfl

/-- Claim C5 witness: values 63 and 64 on the empty buffer. -/
theorem c5_witness :
    write_int_normally_small (BitBuffer.mk [] 0) 63
      = (BitBuffer.mk ([] ++ false :: bitsOfWidth 6 63) 0, none)
    ∧ (write_int_normally_small (BitBuffer.mk [] 0) 63).1.bit_len
        = (BitBuffer.mk [] 0).bit_len + 7
    ∧ write_int_normally_small (BitBuffer.mk [] 0) 64
      = (BitBuffer.mk ([] ++ [true, false, false, false, false, false, false, false, true,
          false, true, false, false, false, false, false, false]) 0, none)
    ∧ (write_int_normally_small (BitBuffer.mk [] 0) 64).1.bit_len
        = (BitBuffer.mk [] 0).bit_len + 17 :=
  c5_normally_small_boundary (BitBuffer.mk [] 0) 63 (by norm_num)

end Uper

namespace Uper

/-! ### read_int_max and read_int_normally_small specifications -/

theorem read_int_max_spec (buf : BitBuffer) (v l : Nat) (hl1 : 1 ≤ l) (hl8 : l ≤ 8)
    (hv : v < 2 ^ (8 * l))
    (hb0 : buf.bits.getD buf.read_pos false = false)
    (hdetbits : ∀ k, k < 7 → buf.bits.getD (buf.read_pos + 1 + k) false = l.testBit (6 - k))
    (hvbits : ∀ k, k < 8 * l →
        buf.bits.getD (buf.read_pos + 8 + k) false = v.testBit (8 * l - 1 - k))
    (hr : buf.read_pos + 8 + 8 * l ≤ buf.bits.length) :
    read_int_max buf = (⟨buf.bits, buf.read_pos + 8 + 8 * l⟩, .ok v) := by
  have hdet := read_length_determinant_spec1 buf l (by omega) hb0 hdetbits (by omega)
  have hstage : read_int_max buf
      = (if l > 8 then
          ((BitBuffer.mk buf.bits (buf.read_pos + 8)), Except.error (Error.UnsupportedOperation
            "Reading bigger data types than 64bit is not supported"))
        else
          match read_bit_string_till_end (BitBuffer.mk buf.bits (buf.read_pos + 8))
              (List.replicate 8 0) (8 * 8 - l * 8) with
          | (buf2, dst, none) => (buf2, Except.ok (read_u64 dst))
          | (buf2, _, some e) => (buf2, Except.error e)) := by
    simp only [read_int_max]
    rw [hdet]
  rw [hstage, if_neg (by omega)]
  have htill := read_bits_into_eight (BitBuffer.mk buf.bits (buf.read_pos + 8)) (8 * l) v
    (by omega) hv
    (by
      intro k hk
      exact hvbits k hk)
    (Or.inl (by
      show buf.read_pos + 8 + 8 * l ≤ buf.bits.length
      omega))
  rw [show (64 : Nat) - 8 * l = 8 * 8 - l * 8 from by omega] at htill
  rw [htill]
  show ((BitBuffer.mk buf.bits (buf.read_pos + 8 + 8 * l)), Except.ok (read_u64 (be_bytes v)))
      = _
  rw [read_u64_be_bytes, Nat.mod_eq_of_lt (by
    calc v < 2 ^ (8 * l) := hv
      _ ≤ 2 ^ 64 := Nat.pow_le_pow_right (by norm_num) (by omega))]

theorem read_int_normally_small_spec_small (buf : BitBuffer) (v : Nat) (hv : v ≤ 63)
    (hb0 : buf.bits.getD buf.read_pos false = false)
    (hbits : ∀ k, k < 6 → buf.bits.getD (buf.read_pos + 1 + k) false = v.testBit (5 - k))
    (hr : buf.read_pos + 7 ≤ buf.bits.length) :
    read_int_normally_small buf = (⟨buf.bits, buf.read_pos + 7⟩, .ok v) := by
  have hrb := read_bit_lt buf (by omega)
  obtain ⟨dst', heq, hlen, hbit, hbound⟩ := read_bit_string_spec
    (BitBuffer.mk buf.bits (buf.read_pos + 1)) [0] 2 6 (by simp)
    (Or.inl (by
      show buf.read_pos + 1 + 6 ≤ buf.bits.length
      omega))
  have hdst : dst' = [v] := by
    apply bytes_ext
    · rw [hlen]
      rfl
    · apply hbound
      intro x hx
      simp at hx
      omega
    · intro x hx
      simp at hx
      omega
    · intro i hi
      rw [hlen] at hi
      simp only [List.length_cons, List.length_nil] at hi
      rw [hbit i]
      rw [byteBit_cons_lt v [] i (by omega)]
      by_cases hwin : 2 ≤ i ∧ i < 2 + 6 ∧ i < 8 * ([0] : List Nat).length
      · rw [if_pos hwin]
        show buf.bits.getD (buf.read_pos + 1 + (i - 2)) false = v.testBit (7 - i)
        rw [hbits (i - 2) (by omega)]
        congr 1
        omega
      · rw [if_neg hwin]
        rw [byteBit_cons_lt 0 [] i (by omega), Nat.zero_testBit]
        have hi2 : i < 2 := by
          simp only [List.length_cons, List.length_nil] at hwin
          omega
        symm
        apply Nat.testBit_lt_two_pow
        calc v < 2 ^ 6 := by omega
          _ ≤ 2 ^ (7 - i) := Nat.pow_le_pow_right (by norm_num) (by omega)
  have hstage : read_int_normally_small buf
      = match read_bit_string (BitBuffer.mk buf.bits (buf.read_pos + 1)) [0] 2 6 with
        | (buf2, bytes, none) =>
          ((buf2, Except.ok (bytes.getD 0 0)) : BitBuffer × Except Error Nat)
        | (buf2, _, some e) => (buf2, Except.error e) := by
    simp only [read_int_normally_small]
    rw [hrb, hb0]
    rfl
  rw [hstage, heq]
  show ((BitBuffer.mk buf.bits (buf.read_pos + 1 + 6)), Except.ok (dst'.getD 0 0)) = _
  rw [hdst]
  rfl

theorem read_int_normally_small_spec_big (buf : BitBuffer) (v l : Nat)
    (hl1 : 1 ≤ l) (hl8 : l ≤ 8) (hv : v < 2 ^ (8 * l))
    (hb0 : buf.bits.getD buf.read_pos false = true)
    (hb1 : buf.bits.getD (buf.read_pos + 1) false = false)
    (hdetbits : ∀ k, k < 7 →
        buf.bits.getD (buf.read_pos + 2 + k) false = l.testBit (6 - k))
    (hvbits : ∀ k, k < 8 * l →
        buf.bits.getD (buf.read_pos + 9 + k) false = v.testBit (8 * l - 1 - k))
    (hr : buf.read_pos + 9 + 8 * l ≤ buf.bits.length) :
    read_int_normally_small buf = (⟨buf.bits, buf.read_pos + 9 + 8 * l⟩, .ok v) := by
  have hrb := read_bit_lt buf (by omega)
  have hstage : read_int_normally_small buf
      = read_int_max (BitBuffer.mk buf.bits (buf.read_pos + 1)) := by
    simp only [read_int_normally_small]
    rw [hrb, hb0]
    rfl
  rw [hstage]
  have hmax := read_int_max_spec (BitBuffer.mk buf.bits (buf.read_pos + 1)) v l hl1 hl8 hv
    (by
      show buf.bits.getD (buf.read_pos + 1) false = false
      exact hb1)
    (by
      intro k hk
      show buf.bits.getD (buf.read_pos + 1 + 1 + k) false = l.testBit (6 - k)
      rw [show buf.read_pos + 1 + 1 + k = buf.read_pos + 2 + k from by omega]
      exact hdetbits k hk)
    (by
      intro k hk
      show buf.bits.getD (buf.read_pos + 1 + 8 + k) false = v.testBit (8 * l - 1 - k)
      rw [show buf.read_pos + 1 + 8 + k = buf.read_pos + 9 + k from by omega]
      exact hvbits k hk)
    (by
      show buf.read_pos + 1 + 8 + 8 * l ≤ buf.bits.length
      omega)
  rw [hmax]

end Uper

namespace Uper

/-! ### Choice-index helpers -/

theorem wrap64_lb (x : Int) : -(2 ^ 63) ≤ wrap64 x := by
  unfold wrap64
  have := Int.emod_nonneg (x + 2 ^ 63) (show (2 ^ 64 : Int) ≠ 0 from by norm_num)
  omega

theorem wrap64_ub (x : Int) : wrap64 x < 2 ^ 63 := by
  unfold wrap64
  have := Int.emod_lt_of_pos (x + 2 ^ 63) (show (0 : Int) < 2 ^ 64 from by norm_num)
  omega

theorem write_int_ok_inv (buf : BitBuffer) (v L U : Int)
    (h : (write_int buf v (L, U)).2 = none) : L ≤ v ∧ v ≤ U := by
  by_cases hc : v > U ∨ v < L
  · rw [write_int_err buf v L U hc] at h
    simp at h
  · omega

theorem getD_append_at' {α : Type} (pre l : List α) (d : α) (k : Nat) (hk : k < l.length) :
    (pre ++ l).getD (pre.length + k) d = l.getD k d := by
  rw [List.getD_append_right _ _ _ _ (by omega), Nat.add_sub_cancel_left]

theorem write_choice_index_ext_lt (buf : BitBuffer) (index N : Nat) (h : index < N) :
    write_choice_index_extensible buf index N
      = write_int (buf.write_bit false) (i64_of_u64 index)
          (0, wrap64 (i64_of_u64 N - 1)) := by
  simp only [write_choice_index_extensible, write_choice_index]
  rw [if_neg (by omega)]

theorem write_choice_index_ext_ge (buf : BitBuffer) (index N : Nat) (h : N ≤ index) :
    write_choice_index_extensible buf index N
      = write_int_normally_small (buf.write_bit true) (index - N) := by
  simp only [write_choice_index_extensible]
  rw [if_pos h]

set_option maxHeartbeats 1000000 in
theorem read_choice_index_of_int (buf : BitBuffer) (N : Nat) (b' : BitBuffer) (v : Int)
    (h : read_int buf (0, wrap64 (i64_of_u64 N - 1)) = (b', .ok v)) :
    read_choice_index buf N = (b', .ok (u64_of_i64 v)) := by
  simp only [read_choice_index]
  rw [h]

theorem read_choice_index_ext_stage_false (buf : BitBuffer) (N : Nat)
    (hlt : buf.read_pos < buf.bits.length)
    (hb : buf.bits.getD buf.read_pos false = false) :
    read_choice_index_extensible buf N
      = read_choice_index (BitBuffer.mk buf.bits (buf.read_pos + 1)) N := by
  simp only [read_choice_index_extensible]
  rw [read_bit_lt buf hlt, hb]
  rfl

theorem read_choice_index_ext_stage_true (buf : BitBuffer) (N : Nat)
    (hlt : buf.read_pos < buf.bits.length)
    (hb : buf.bits.getD buf.read_pos false = true) :
    read_choice_index_extensible buf N
      = match read_int_normally_small (BitBuffer.mk buf.bits (buf.read_pos + 1)) with
        | (buf2, Except.ok k) =>
          ((buf2, Except.ok ((k + N) % 2 ^ 64)) : BitBuffer × Except Error Nat)
        | (buf2, Except.error e) => (buf2, Except.error e) := by
  simp only [read_choice_index_extensible]
  rw [read_bit_lt buf hlt, hb]
  rfl

end Uper

namespace Uper

set_option maxHeartbeats 1000000 in
/-- Claim C8: for every variant count `N ≥ 1` and index, the extensible
choice-index write emits a `0` prefix bit followed by the plain form when
`index < N` and a `1` prefix bit followed by the normally-small form of
`index − N` otherwise, and whenever the write succeeds, reading the buffer
back yields the original index. -/
theorem c8_choice_index_extensible_roundtrip (N index : Nat)
    (hN : 1 ≤ N) (hNlt : N < 2 ^ 64) (hidx : index < 2 ^ 64)
    (hok : (write_choice_index_extensible (BitBuffer.mk [] 0) index N).2 = none) :
    (write_choice_index_extensible (BitBuffer.mk [] 0) index N).1.bits.getD 0 true
        = decide (N ≤ index)
    ∧ (read_choice_index_extensible
        (write_choice_index_extensible (BitBuffer.mk [] 0) index N).1 N).2
      = .ok index := by
  by_cases hcase : index < N
  · have hw := write_choice_index_ext_lt (BitBuffer.mk [] 0) index N hcase
    have hUlb : -(2 ^ 63) ≤ wrap64 (i64_of_u64 N - 1) := wrap64_lb _
    have hUub : wrap64 (i64_of_u64 N - 1) < 2 ^ 63 := wrap64_ub _
    have hok2 : (write_int ((BitBuffer.mk [] 0).write_bit false) (i64_of_u64 index)
        (0, wrap64 (i64_of_u64 N - 1))).2 = none := by
      rw [← hw]
      exact hok
    obtain ⟨hv0, hvU⟩ := write_int_ok_inv _ _ _ _ hok2
    have hidx63 : index < 2 ^ 63 := by
      by_contra hge
      have hneg : i64_of_u64 index < 0 := by
        unfold i64_of_u64
        rw [if_neg (by omega)]
        have : ((index : Int)) < 2 ^ 64 := by exact_mod_cast hidx
        omega
      omega
    have hspec := write_int_spec ((BitBuffer.mk [] 0).write_bit false) (i64_of_u64 index) 0
      (wrap64 (i64_of_u64 N - 1)) (by norm_num) hUub hv0 hvU
    rw [hspec] at hw
    have hbuf1 : (write_choice_index_extensible (BitBuffer.mk [] 0) index N).1
        = BitBuffer.mk (false :: bitsOfWidth
            (Nat.size ((wrap64 (i64_of_u64 N - 1) - 0).toNat))
            ((i64_of_u64 index - 0).toNat)) 0 := by
      rw [hw]
      rfl
    set w := Nat.size ((wrap64 (i64_of_u64 N - 1) - 0).toNat) with hwdef
    set dl := ((i64_of_u64 index - 0).toNat) with hdldef
    have hlen1 : (false :: bitsOfWidth w dl).length = 1 + w := by
      rw [List.length_cons, bitsOfWidth_length]
      omega
    have hread := read_int_spec (BitBuffer.mk (false :: bitsOfWidth w dl) 1)
      (i64_of_u64 index) 0 (wrap64 (i64_of_u64 N - 1)) (by norm_num) hUub hv0 hvU
      (by
        intro k hk
        show (false :: bitsOfWidth w dl).getD (1 + k) false = dl.testBit (w - 1 - k)
        have h3 := getD_append_at' [false] (bitsOfWidth w dl) false k
          (by rw [bitsOfWidth_length]; exact hk)
        rw [getD_bitsOfWidth w dl k hk] at h3
        exact h3)
      (by
        show 1 + w ≤ (false :: bitsOfWidth w dl).length
        omega)
    constructor
    · rw [hbuf1]
      have hdec : decide (N ≤ index) = false := by
        rw [decide_eq_false_iff_not]
        omega
      rw [hdec]
      rfl
    · rw [hbuf1]
      rw [read_choice_index_ext_stage_false _ N
        (by show (0 : Nat) < (false :: bitsOfWidth w dl).length; rw [hlen1]; omega) (by rfl)]
      rw [read_choice_index_of_int _ N _ _ hread]
      show Except.ok (u64_of_i64 (i64_of_u64 index)) = Except.ok index
      rw [u64_of_i64_i64_of_u64 index hidx]
  · have hge : N ≤ index := by omega
    have hw := write_choice_index_ext_ge (BitBuffer.mk [] 0) index N hge
    by_cases hd63 : 2 ^ 63 ≤ index - N
    · exfalso
      rw [hw, write_int_normally_small_err _ _ hd63] at hok
      simp at hok
    · by_cases hdsmall : index - N ≤ 63
      · have hws := write_int_normally_small_spec_small
          ((BitBuffer.mk [] 0).write_bit true) (index - N) hdsmall
        rw [hws] at hw
        have hbuf1 : (write_choice_index_extensible (BitBuffer.mk [] 0) index N).1
            = BitBuffer.mk (true :: false :: bitsOfWidth 6 (index - N)) 0 := by
          rw [hw]
          rfl
        have hlen1 : (true :: false :: bitsOfWidth 6 (index - N)).length = 8 := by
          simp [bitsOfWidth_length]
        have hns := read_int_normally_small_spec_small
          (BitBuffer.mk (true :: false :: bitsOfWidth 6 (index - N)) 1) (index - N) hdsmall
          (by rfl)
          (by
            intro k hk
            show (true :: false :: bitsOfWidth 6 (index - N)).getD (1 + 1 + k) false
                = (index - N).testBit (5 - k)
            have h3 := getD_append_at' [true, false] (bitsOfWidth 6 (index - N)) false k
              (by rw [bitsOfWidth_length]; exact hk)
            rw [getD_bitsOfWidth 6 (index - N) k hk] at h3
            exact h3)
          (by
            show 1 + 7 ≤ (true :: false :: bitsOfWidth 6 (index - N)).length
            omega)
        constructor
        · rw [hbuf1]
          have hdec : decide (N ≤ index) = true := by simp [hge]
          rw [hdec]
          rfl
        · rw [hbuf1]
          rw [read_choice_index_ext_stage_true _ N
            (by
              show (0 : Nat) < (true :: false :: bitsOfWidth 6 (index - N)).length
              rw [hlen1]
              omega)
            (by rfl)]
          rw [hns]
          show Except.ok ((index - N + N) % 2 ^ 64) = Except.ok index
          rw [show index - N + N = index from by omega, Nat.mod_eq_of_lt hidx]
      · have h64le : 64 ≤ index - N := by omega
        have hd63' : index - N ≤ 2 ^ 63 - 1 := by omega
        have hwb := write_int_normally_small_spec_big
          ((BitBuffer.mk [] 0).write_bit true) (index - N) h64le hd63'
        rw [hwb] at hw
        set l := max (stripLen (be_bytes (index - N)) 8) 1 with hldef
        have hl1 : 1 ≤ l := by omega
        have hl8 : l ≤ 8 := by
          have := stripLen_le (be_bytes (index - N)) 8
          omega
        have hdlt : index - N < 2 ^ (8 * l) := write_int_max_bound _ (by omega)
        have hbuf1 : (write_choice_index_extensible (BitBuffer.mk [] 0) index N).1
            = BitBuffer.mk (true :: true :: false ::
                (bitsOfWidth 7 l ++ bitsOfWidth (8 * l) (index - N))) 0 := by
          rw [hw]
          rfl
        have hlen1 : (true :: true :: false ::
            (bitsOfWidth 7 l ++ bitsOfWidth (8 * l) (index - N))).length = 10 + 8 * l := by
          simp [bitsOfWidth_length]
          omega
        have hns := read_int_normally_small_spec_big
          (BitBuffer.mk (true :: true :: false ::
            (bitsOfWidth 7 l ++ bitsOfWidth (8 * l) (index - N))) 1)
          (index - N) l hl1 hl8 hdlt
          (by rfl)
          (by rfl)
          (by
            intro k hk
            show (true :: true :: false ::
                (bitsOfWidth 7 l ++ bitsOfWidth (8 * l) (index - N))).getD (1 + 2 + k) false
              = l.testBit (6 - k)
            have h3 := getD_append_at' [true, true, false]
              (bitsOfWidth 7 l ++ bitsOfWidth (8 * l) (index - N)) false k
              (by rw [List.length_append, bitsOfWidth_length, bitsOfWidth_length]; omega)
            have h4 : (bitsOfWidth 7 l ++ bitsOfWidth (8 * l) (index - N)).getD k false
                = (bitsOfWidth 7 l).getD k false :=
              List.getD_append _ _ _ k (by rw [bitsOfWidth_length]; exact hk)
            rw [h4, getD_bitsOfWidth 7 l k hk] at h3
            exact h3)
          (by
            intro k hk
            show (true :: true :: false ::
                (bitsOfWidth 7 l ++ bitsOfWidth (8 * l) (index - N))).getD (1 + 9 + k) false
              = (index - N).testBit (8 * l - 1 - k)
            rw [show 1 + 9 + k = 3 + (7 + k) from by omega]
            have h3 := getD_append_at' [true, true, false]
              (bitsOfWidth 7 l ++ bitsOfWidth (8 * l) (index - N)) false (7 + k)
              (by rw [List.length_append, bitsOfWidth_length, bitsOfWidth_length]; omega)
            have h4 : (bitsOfWidth 7 l ++ bitsOfWidth (8 * l) (index - N)).getD (7 + k) false
                = (bitsOfWidth (8 * l) (index - N)).getD (7 + k - (bitsOfWidth 7 l).length)
                    false :=
              List.getD_append_right _ _ _ (7 + k) (by rw [bitsOfWidth_length]; omega)
            rw [bitsOfWidth_length, show 7 + k - 7 = k from by omega,
              getD_bitsOfWidth (8 * l) (index - N) k hk] at h4
            rw [h4] at h3
            exact h3)
          (by
            show 1 + 9 + 8 * l ≤ (true :: true :: false ::
                (bitsOfWidth 7 l ++ bitsOfWidth (8 * l) (index - N))).length
            rw [hlen1])
        constructor
        · rw [hbuf1]
          have hdec : decide (N ≤ index) = true := by simp [hge]
          rw [hdec]
          rfl
        · rw [hbuf1]
          rw [read_choice_index_ext_stage_true _ N
            (by
              show (0 : Nat) < (true :: true :: false ::
                (bitsOfWidth 7 l ++ bitsOfWidth (8 * l) (index - N))).length
              rw [hlen1]
              omega)
            (by rfl)]
          rw [hns]
          show Except.ok ((index - N + N) % 2 ^ 64) = Except.ok index
          rw [show index - N + N = index from by omega, Nat.mod_eq_of_lt hidx]

/-- Claim C8 witness: root index 1 of 2 and extension index 70 of 2. -/
theorem c8_witness :
    ((write_choice_index_extensible (BitBuffer.mk [] 0) 1 2).1.bits.getD 0 true
        = decide ((2 : Nat) ≤ 1)
      ∧ (read_choice_index_extensible
          (write_choice_index_extensible (BitBuffer.mk [] 0) 1 2).1 2).2 = .ok 1)
    ∧ ((write_choice_index_extensible (BitBuffer.mk [] 0) 70 2).1.bits.getD 0 true
        = decide ((2 : Nat) ≤ 70)
      ∧ (read_choice_index_extensible
          (write_choice_index_extensible (BitBuffer.mk [] 0) 70 2).1 2).2 = .ok 70) :=
  ⟨c8_choice_index_extensible_roundtrip 2 1 (by norm_num) (by norm_num) (by norm_num)
      (by decide),
   c8_choice_index_extensible_roundtrip 2 70 (by norm_num) (by norm_num) (by norm_num)
      (by decide)⟩

end Uper

namespace Uper

/-! ### Sub-string with length-determinant prefix -/

theorem write_substring_parts (buf : BitBuffer)
    (producer : BitBuffer → BitBuffer × Option Error) (inner : BitBuffer)
    (hp : producer BitBuffer.default = (inner, none)) :
    write_substring_with_length_determinant_pfx buf producer
      = wseq (write_length_determinant buf inner.byte_len)
          (fun b => write_bit_string b inner.content 0 inner.bit_len) := by
  simp only [write_substring_with_length_determinant_pfx]
  rw [hp]

theorem content_bits_eq (inner : BitBuffer) (b : BitBuffer) :
    write_bit_string b inner.content 0 inner.bit_len
      = (⟨b.bits ++ inner.bits, b.read_pos⟩, none) := by
  have hguard : (0 : Nat) + inner.bit_len ≤ inner.content.length * 8 := by
    show 0 + inner.bits.length ≤ (bitsToBytes inner.bits).length * 8
    rw [bitsToBytes_length]
    omega
  rw [write_bit_string_eq b inner.content 0 inner.bit_len hguard]
  have hlist : (List.range inner.bit_len).map (fun k => byteBit inner.content (0 + k))
      = inner.bits := by
    have hstep : (List.range inner.bit_len).map (fun k => byteBit inner.content (0 + k))
        = (List.range inner.bits.length).map (fun k => inner.bits.getD k false) := by
      apply List.map_congr_left
      intro k hk
      rw [List.mem_range] at hk
      rw [Nat.zero_add]
      have hbld : inner.bit_len = inner.bits.length := rfl
      exact byteBit_bitsToBytes inner.bits k (by omega)
    rw [hstep, map_range_getD]
  rw [hlist]

theorem read_substring_of_parts (buf b1 b2 : BitBuffer) (l : Nat) (bytes : List Nat)
    (hdet : read_length_determinant buf = (b1, .ok l))
    (hbs : read_bit_string b1 (List.replicate l 0) 0 (l * 8) = (b2, bytes, none)) :
    read_substring_with_length_determinant_pfx buf
      = (b2, .ok (BitBuffer.from_bits bytes (l * 8))) := by
  have h1 : read_substring_with_length_determinant_pfx buf
      = match read_bit_string b1 (List.replicate l 0) 0 (l * 8) with
        | (buf2, bytes2, none) =>
          ((buf2, Except.ok (BitBuffer.from_bits bytes2 (l * 8))) :
            BitBuffer × Except Error BitBuffer)
        | (buf2, _, some e) => (buf2, Except.error e) := by
    simp only [read_substring_with_length_determinant_pfx]
    rw [hdet]
  rw [h1, hbs]

set_option maxHeartbeats 1000000 in
/-- Claim C2 (amended): the sub-string writer emits the inner buffer's byte
length as a determinant and then exactly `bit_len` bits — the inner bits
verbatim, not `8·byte_len` bits; when the producer's output is
octet-aligned the reader consumes exactly `8·byte_len` bits after the
determinant and returns the inner bits with nothing left over. -/
theorem c2_substring_amended (producer : BitBuffer → BitBuffer × Option Error)
    (inner : BitBuffer) (hp : producer BitBuffer.default = (inner, none))
    (hlen : inner.byte_len ≤ 16383) :
    (write_substring_with_length_determinant_pfx BitBuffer.default producer).2 = none
    ∧ (write_substring_with_length_determinant_pfx BitBuffer.default producer).1.bit_len
        = (if inner.byte_len ≤ 127 then 8 else 16) + inner.bit_len
    ∧ (8 ∣ inner.bit_len →
        (read_substring_with_length_determinant_pfx
            (write_substring_with_length_determinant_pfx BitBuffer.default producer).1).2
          = .ok (BitBuffer.mk inner.bits 0)
        ∧ BitBuffer.bits_remaining
            ((read_substring_with_length_determinant_pfx
              (write_substring_with_length_determinant_pfx BitBuffer.default producer).1).1)
            = 0) := by
  have hparts := write_substring_parts BitBuffer.default producer inner hp
  by_cases hsmall : inner.byte_len ≤ 127
  · have hdetw := write_length_determinant_spec1 BitBuffer.default inner.byte_len hsmall
    have hw : write_substring_with_length_determinant_pfx BitBuffer.default producer
        = (⟨false :: bitsOfWidth 7 inner.byte_len ++ inner.bits, 0⟩, none) := by
      rw [hparts, hdetw]
      show write_bit_string
          (BitBuffer.mk ([] ++ false :: bitsOfWidth 7 inner.byte_len) 0)
          inner.content 0 inner.bit_len = _
      rw [content_bits_eq inner]
      show ((BitBuffer.mk (([] ++ false :: bitsOfWidth 7 inner.byte_len) ++ inner.bits) 0),
          (none : Option Error)) = _
      rw [show ([] ++ false :: bitsOfWidth 7 inner.byte_len) ++ inner.bits
          = false :: bitsOfWidth 7 inner.byte_len ++ inner.bits from by simp]
    refine ⟨by rw [hw], ?_, ?_⟩
    · rw [hw, if_pos hsmall]
      show (false :: bitsOfWidth 7 inner.byte_len ++ inner.bits).length
          = 8 + inner.bit_len
      have hbld : inner.bit_len = inner.bits.length := rfl
      simp [bitsOfWidth_length, hbld]
      omega
    · intro halign
      rw [hw]
      have hlen1 : (false :: bitsOfWidth 7 inner.byte_len ++ inner.bits).length
          = 8 + inner.bits.length := by
        simp [bitsOfWidth_length]
        omega
      have hdetr := read_length_determinant_spec1
        (BitBuffer.mk (false :: bitsOfWidth 7 inner.byte_len ++ inner.bits) 0)
        inner.byte_len hsmall (by rfl)
        (by
          intro k hk
          show (false :: bitsOfWidth 7 inner.byte_len ++ inner.bits).getD (0 + 1 + k) false
              = inner.byte_len.testBit (6 - k)
          have h3 := getD_append_at' [false] (bitsOfWidth 7 inner.byte_len ++ inner.bits)
            false k (by simp [bitsOfWidth_length]; omega)
          have h4 : (bitsOfWidth 7 inner.byte_len ++ inner.bits).getD k false
              = (bitsOfWidth 7 inner.byte_len).getD k false :=
            List.getD_append _ _ _ k (by rw [bitsOfWidth_length]; exact hk)
          rw [h4, getD_bitsOfWidth 7 inner.byte_len k hk] at h3
          exact h3)
        (by
          show 0 + 8 ≤ (false :: bitsOfWidth 7 inner.byte_len ++ inner.bits).length
          rw [hlen1]
          omega)
      obtain ⟨dst', hbs, hlendst, hbit, hbound⟩ := read_bit_string_spec
        (BitBuffer.mk (false :: bitsOfWidth 7 inner.byte_len ++ inner.bits) 8)
        (List.replicate inner.byte_len 0) 0 (inner.byte_len * 8)
        (by simp <;> omega)
        (Or.inl (by
          show 8 + inner.byte_len * 8
              ≤ (false :: bitsOfWidth 7 inner.byte_len ++ inner.bits).length
          rw [hlen1]
          obtain ⟨c, hc⟩ := halign
          have hbld : inner.bit_len = inner.bits.length := rfl
          show 8 + (inner.bits.length + 7) / 8 * 8 ≤ 8 + inner.bits.length
          omega))
      have hread := read_substring_of_parts _ _ _ inner.byte_len dst'
        (by rw [hdetr])
        hbs
      have hfb : BitBuffer.from_bits dst' (inner.byte_len * 8) = BitBuffer.mk inner.bits 0 := by
        show (⟨(List.range (inner.byte_len * 8)).map (byteBit dst'), 0⟩ : BitBuffer) = _
        obtain ⟨c, hc⟩ := halign
        have hbld : inner.bit_len = inner.bits.length := rfl
        have hbl : inner.byte_len * 8 = inner.bits.length := by
          show (inner.bits.length + 7) / 8 * 8 = inner.bits.length
          omega
        have hmap : (List.range (inner.byte_len * 8)).map (byteBit dst')
            = (List.range inner.bits.length).map (fun i => inner.bits.getD i false) := by
          rw [hbl]
          apply List.map_congr_left
          intro i hi
          rw [List.mem_range] at hi
          rw [hbit i, if_pos (by
            refine ⟨by omega, by omega, ?_⟩
            rw [List.length_replicate]
            omega)]
          show (false :: bitsOfWidth 7 inner.byte_len ++ inner.bits).getD (8 + (i - 0)) false
              = inner.bits.getD i false
          have h3 := getD_append_at' (false :: bitsOfWidth 7 inner.byte_len) inner.bits
            false i (by omega)
          rw [show (false :: bitsOfWidth 7 inner.byte_len).length = 8 from by
            simp [bitsOfWidth_length]] at h3
          rw [show (8 : Nat) + (i - 0) = 8 + i from by omega]
          exact h3
        rw [hmap, map_range_getD]
      constructor
      · show (read_substring_with_length_determinant_pfx
            (BitBuffer.mk (false :: bitsOfWidth 7 inner.byte_len ++ inner.bits) 0)).2
            = Except.ok (BitBuffer.mk inner.bits 0)
        rw [hread, hfb]
      · show BitBuffer.bits_remaining
            ((read_substring_with_length_determinant_pfx
              (BitBuffer.mk (false :: bitsOfWidth 7 inner.byte_len ++ inner.bits) 0)).1) = 0
        rw [hread]
        show (false :: bitsOfWidth 7 inner.byte_len ++ inner.bits).length
            - (8 + inner.byte_len * 8) = 0
        obtain ⟨c, hc⟩ := halign
        have hbld : inner.bit_len = inner.bits.length := rfl
        have hbl : inner.byte_len * 8 = inner.bits.length := by
          show (inner.bits.length + 7) / 8 * 8 = inner.bits.length
          omega
        omega
  · have hbig : 128 ≤ inner.byte_len := by omega
    have hdetw := write_length_determinant_spec2 BitBuffer.default inner.byte_len hbig hlen
    have hw : write_substring_with_length_determinant_pfx BitBuffer.default producer
        = (⟨true :: false :: bitsOfWidth 14 inner.byte_len ++ inner.bits, 0⟩, none) := by
      rw [hparts, hdetw]
      show write_bit_string
          (BitBuffer.mk ([] ++ true :: false :: bitsOfWidth 14 inner.byte_len) 0)
          inner.content 0 inner.bit_len = _
      rw [content_bits_eq inner]
      show ((BitBuffer.mk (([] ++ true :: false :: bitsOfWidth 14 inner.byte_len) ++ inner.bits)
          0), (none : Option Error)) = _
      rw [show ([] ++ true :: false :: bitsOfWidth 14 inner.byte_len) ++ inner.bits
          = true :: false :: bitsOfWidth 14 inner.byte_len ++ inner.bits from by simp]
    refine ⟨by rw [hw], ?_, ?_⟩
    · rw [hw, if_neg hsmall]
      show (true :: false :: bitsOfWidth 14 inner.byte_len ++ inner.bits).length
          = 16 + inner.bit_len
      have hbld : inner.bit_len = inner.bits.length := rfl
      simp [bitsOfWidth_length, hbld]
      omega
    · intro halign
      rw [hw]
      have hlen1 : (true :: false :: bitsOfWidth 14 inner.byte_len ++ inner.bits).length
          = 16 + inner.bits.length := by
        simp [bitsOfWidth_length]
        omega
      have hdetr := read_length_determinant_spec2
        (BitBuffer.mk (true :: false :: bitsOfWidth 14 inner.byte_len ++ inner.bits) 0)
        inner.byte_len hlen (by rfl) (by rfl)
        (by
          intro k hk
          show (true :: false :: bitsOfWidth 14 inner.byte_len ++ inner.bits).getD (0 + 2 + k)
              false = inner.byte_len.testBit (13 - k)
          have h3 := getD_append_at' [true, false]
            (bitsOfWidth 14 inner.byte_len ++ inner.bits)
            false k (by simp [bitsOfWidth_length]; omega)
          have h4 : (bitsOfWidth 14 inner.byte_len ++ inner.bits).getD k false
              = (bitsOfWidth 14 inner.byte_len).getD k false :=
            List.getD_append _ _ _ k (by rw [bitsOfWidth_length]; exact hk)
          rw [h4, getD_bitsOfWidth 14 inner.byte_len k hk] at h3
          exact h3)
        (by
          show 0 + 16 ≤ (true :: false :: bitsOfWidth 14 inner.byte_len ++ inner.bits).length
          rw [hlen1]
          omega)
      obtain ⟨dst', hbs, hlendst, hbit, hbound⟩ := read_bit_string_spec
        (BitBuffer.mk (true :: false :: bitsOfWidth 14 inner.byte_len ++ inner.bits) 16)
        (List.replicate inner.byte_len 0) 0 (inner.byte_len * 8)
        (by simp <;> omega)
        (Or.inl (by
          show 16 + inner.byte_len * 8
              ≤ (true :: false :: bitsOfWidth 14 inner.byte_len ++ inner.bits).length
          rw [hlen1]
          obtain ⟨c, hc⟩ := halign
          have hbld : inner.bit_len = inner.bits.length := rfl
          show 16 + (inner.bits.length + 7) / 8 * 8 ≤ 16 + inner.bits.length
          omega))
      have hread := read_substring_of_parts _ _ _ inner.byte_len dst'
        (by rw [hdetr])
        hbs
      have hfb : BitBuffer.from_bits dst' (inner.byte_len * 8) = BitBuffer.mk inner.bits 0 := by
        show (⟨(List.range (inner.byte_len * 8)).map (byteBit dst'), 0⟩ : BitBuffer) = _
        obtain ⟨c, hc⟩ := halign
        have hbld : inner.bit_len = inner.bits.length := rfl
        have hbl : inner.byte_len * 8 = inner.bits.length := by
          show (inner.bits.length + 7) / 8 * 8 = inner.bits.length
          omega
        have hmap : (List.range (inner.byte_len * 8)).map (byteBit dst')
            = (List.range inner.bits.length).map (fun i => inner.bits.getD i false) := by
          rw [hbl]
          apply List.map_congr_left
          intro i hi
          rw [List.mem_range] at hi
          rw [hbit i, if_pos (by
            refine ⟨by omega, by omega, ?_⟩
            rw [List.length_replicate]
            omega)]
          show (true :: false :: bitsOfWidth 14 inner.byte_len ++ inner.bits).getD (16 + (i - 0))
              false = inner.bits.getD i false
          have h3 := getD_append_at' (true :: false :: bitsOfWidth 14 inner.byte_len) inner.bits
            false i (by omega)
          rw [show (true :: false :: bitsOfWidth 14 inner.byte_len).length = 16 from by
            simp [bitsOfWidth_length]] at h3
          rw [show (16 : Nat) + (i - 0) = 16 + i from by omega]
          exact h3
        rw [hmap, map_range_getD]
      constructor
      · show (read_substring_with_length_determinant_pfx
            (BitBuffer.mk (true :: false :: bitsOfWidth 14 inner.byte_len ++ inner.bits) 0)).2
            = Except.ok (BitBuffer.mk inner.bits 0)
        rw [hread, hfb]
      · show BitBuffer.bits_remaining
            ((read_substring_with_length_determinant_pfx
              (BitBuffer.mk (true :: false :: bitsOfWidth 14 inner.byte_len ++ inner.bits) 0)).1)
            = 0
        rw [hread]
        show (true :: false :: bitsOfWidth 14 inner.byte_len ++ inner.bits).length
            - (16 + inner.byte_len * 8) = 0
        obtain ⟨c, hc⟩ := halign
        have hbld : inner.bit_len = inner.bits.length := rfl
        have hbl : inner.byte_len * 8 = inner.bits.length := by
          show (inner.bits.length + 7) / 8 * 8 = inner.bits.length
          omega
        omega

/-- Counterexample to Claim C2 as stated: a producer that emits a single
bit yields an inner buffer with `byte_len = 1`, yet the writer appends only
9 bits in total (8-bit determinant + the 1 inner bit), not the
`8 + 8·byte_len = 16` the claim demands; the reader, attempting the claimed
`8·byte_len` bits after the determinant, runs off the end of the stream. -/
theorem c2_counterexample :
    (write_substring_with_length_determinant_pfx BitBuffer.default
        (fun b => (b.write_bit true, none))).2 = none
    ∧ (write_substring_with_length_determinant_pfx BitBuffer.default
        (fun b => (b.write_bit true, none))).1.bit_len = 9
    ∧ (BitBuffer.write_bit BitBuffer.default true).byte_len = 1
    ∧ (9 : Nat) ≠ 8 + 8 * 1
    ∧ (read_substring_with_length_determinant_pfx
        (write_substring_with_length_determinant_pfx BitBuffer.default
          (fun b => (b.write_bit true, none))).1).2
      = Except.error Error.EndOfStream :=
  ⟨by decide, by decide, by decide, by decide, by rfl⟩

theorem c2_witness :
    (write_substring_with_length_determinant_pfx BitBuffer.default
        (fun b => ((((((((b.write_bit true).write_bit false).write_bit false).write_bit
          true).write_bit false).write_bit false).write_bit false).write_bit true, none))).2 = none
    ∧ (write_substring_with_length_determinant_pfx BitBuffer.default
        (fun b => ((((((((b.write_bit true).write_bit false).write_bit false).write_bit
          true).write_bit false).write_bit false).write_bit false).write_bit true, none))).1.bit_len
        = 8 + 8
    ∧ ((8 : Nat) ∣ 8 →
        (read_substring_with_length_determinant_pfx
            (write_substring_with_length_determinant_pfx BitBuffer.default
              (fun b => ((((((((b.write_bit true).write_bit false).write_bit false).write_bit
                true).write_bit false).write_bit false).write_bit false).write_bit true,
                none))).1).2
          = .ok (BitBuffer.mk [true, false, false, true, false, false, false, true] 0)
        ∧ BitBuffer.bits_remaining
            ((read_substring_with_length_determinant_pfx
              (write_substring_with_length_determinant_pfx BitBuffer.default
                (fun b => ((((((((b.write_bit true).write_bit false).write_bit false).write_bit
                  true).write_bit false).write_bit false).write_bit false).write_bit true,
                  none))).1).1)
            = 0) :=
  c2_substring_amended _
    (BitBuffer.mk [true, false, false, true, false, false, false, true] 0) rfl (by decide)

/-! ### Error atomicity of the writers (C3) -/

theorem till_end_zero_none (b : BitBuffer) (s : List Nat) :
    (write_bit_string_till_end b s 0).2 = none := by
  rw [write_bit_string_till_end_eq b s 0 (by omega)]

theorem write_bit_string_unchanged_of_err (buf : BitBuffer) (bytes : List Nat)
    (off len : Nat) (e : Error) (h : (write_bit_string buf bytes off len).2 = some e) :
    (write_bit_string buf bytes off len).1 = buf := by
  by_cases hg : bytes.length * 8 < off ∨ bytes.length * 8 < off + len
  · rw [write_bit_string, if_pos hg]
  · exfalso
    rw [write_bit_string, if_neg hg] at h
    simp at h

theorem write_int_unchanged_of_err (buf : BitBuffer) (v L U : Int) (e : Error)
    (h : (write_int buf v (L, U)).2 = some e) : (write_int buf v (L, U)).1 = buf := by
  by_cases hr : v > U ∨ v < L
  · rw [write_int_err buf v L U hr]
  · exfalso
    simp only [write_int] at h
    rw [if_neg hr] at h
    rw [write_bit_string_till_end_eq _ _ _ (by
      rw [be_bytes_length]
      have := lz_le_64 (u64_of_i64 (U - L))
      omega)] at h
    simp at h

theorem write_length_determinant_unchanged_of_err (buf : BitBuffer) (n : Nat) (e : Error)
    (h : (write_length_determinant buf n).2 = some e) :
    (write_length_determinant buf n).1 = buf := by
  rcases le_or_lt n 127 with h1 | h1
  · exfalso
    rw [write_length_determinant_spec1 buf n h1] at h
    simp at h
  rcases le_or_lt n 16383 with h2 | h2
  · exfalso
    rw [write_length_determinant_spec2 buf n h1 h2] at h
    simp at h
  · rw [write_length_determinant_err buf n (by omega)]

theorem write_int_max_unchanged_of_err (buf : BitBuffer) (v : Nat) (e : Error)
    (h : (write_int_max buf v).2 = some e) : (write_int_max buf v).1 = buf := by
  rcases le_or_lt v (2 ^ 63 - 1) with h1 | h1
  · exfalso
    rw [write_int_max_spec buf v h1] at h
    simp at h
  · simp only [write_int_max]
    rw [if_pos (by omega)]

theorem write_choice_index_unchanged_of_err (buf : BitBuffer) (i n : Nat) (e : Error)
    (h : (write_choice_index buf i n).2 = some e) : (write_choice_index buf i n).1 = buf := by
  simp only [write_choice_index] at h ⊢
  exact write_int_unchanged_of_err _ _ _ _ e h

theorem wseq_unchanged (r : WResult) (f : BitBuffer → WResult) (buf : BitBuffer) (e : Error)
    (hr : ∀ e', r.2 = some e' → r.1 = buf)
    (hf : ∀ b, (f b).2 = none)
    (h : (wseq r f).2 = some e) : (wseq r f).1 = buf := by
  rcases r with ⟨b, o⟩
  cases o with
  | none =>
    simp only [wseq] at h
    rw [hf b] at h
    simp at h
  | some e1 =>
    simp only [wseq]
    exact hr e1 rfl

theorem write_octet_string_unchanged_of_err (buf : BitBuffer) (s : List Nat)
    (r : Option (Int × Int)) (e : Error)
    (h : (write_octet_string buf s r).2 = some e) : (write_octet_string buf s r).1 = buf := by
  rcases r with _ | ⟨mn, mx⟩
  · simp only [write_octet_string] at h ⊢
    exact wseq_unchanged _ _ _ e
      (fun e1 h1 => write_length_determinant_unchanged_of_err _ _ e1 h1)
      (fun b => till_end_zero_none b s) h
  · simp only [write_octet_string] at h ⊢
    exact wseq_unchanged _ _ _ e
      (fun e1 h1 => write_int_unchanged_of_err _ _ _ _ e1 h1)
      (fun b => till_end_zero_none b s) h

theorem write_utf8_string_unchanged_of_err (buf : BitBuffer) (s : List Nat) (e : Error)
    (h : (write_utf8_string buf s).2 = some e) : (write_utf8_string buf s).1 = buf := by
  simp only [write_utf8_string] at h ⊢
  exact wseq_unchanged _ _ _ e
    (fun e1 h1 => write_length_determinant_unchanged_of_err _ _ e1 h1)
    (fun b => till_end_zero_none b s) h

theorem write_substring_unchanged_of_err (buf : BitBuffer)
    (p : BitBuffer → BitBuffer × Option Error) (e : Error)
    (h : (write_substring_with_length_determinant_pfx buf p).2 = some e) :
    (write_substring_with_length_determinant_pfx buf p).1 = buf := by
  rcases hpd : p BitBuffer.default with ⟨inner, o⟩
  cases o with
  | some e1 =>
    have hform : write_substring_with_length_determinant_pfx buf p = (buf, some e1) := by
      simp only [write_substring_with_length_determinant_pfx]
      rw [hpd]
    rw [hform]
  | none =>
    have hform := write_substring_parts buf p inner hpd
    rw [hform] at h ⊢
    refine wseq_unchanged _ _ _ e
      (fun e1 h1 => write_length_determinant_unchanged_of_err _ _ e1 h1)
      (fun b => ?_) h
    rw [content_bits_eq inner b]

theorem write_int_normally_small_err_shape (buf : BitBuffer) (v : Nat) (e : Error)
    (h : (write_int_normally_small buf v).2 = some e) :
    (write_int_normally_small buf v).1 = buf.write_bit true := by
  rcases le_or_lt v 63 with h1 | h1
  · exfalso
    simp only [write_int_normally_small] at h
    rw [if_pos h1] at h
    rw [write_bit_string_eq _ _ 2 6 (by rw [List.length_drop, be_bytes_length])] at h
    simp at h
  · simp only [write_int_normally_small] at h ⊢
    rw [if_neg (by omega)] at h ⊢
    exact write_int_max_unchanged_of_err _ _ e h

theorem write_choice_index_extensible_err_shape (buf : BitBuffer) (i n : Nat) (e : Error)
    (h : (write_choice_index_extensible buf i n).2 = some e) :
    (write_choice_index_extensible buf i n).1 = (buf.write_bit true).write_bit true
    ∨ (write_choice_index_extensible buf i n).1 = buf.write_bit false := by
  simp only [write_choice_index_extensible] at h ⊢
  by_cases hge : i ≥ n
  · rw [if_pos hge] at h ⊢
    exact Or.inl (write_int_normally_small_err_shape _ _ e h)
  · rw [if_neg hge] at h ⊢
    exact Or.inr (write_choice_index_unchanged_of_err _ _ _ e h)

/-- Claim C3 (amended): the write operations `write_bit_string`, `write_int`,
`write_length_determinant`, `write_int_max`, `write_choice_index`,
`write_octet_string`, `write_utf8_string` and
`write_substring_with_length_determinant_prefix` return the buffer unchanged
whenever they fail; but `write_int_normally_small` and
`write_choice_index_extensible` are not atomic on error: the former leaves the
already-written extension-prefix bit `1` behind, the latter leaves its one-bit
choice prefix (plus the nested prefix bit in the extended branch). -/
theorem c3_write_error_atomicity :
    (∀ buf bytes off len e, (write_bit_string buf bytes off len).2 = some e →
        (write_bit_string buf bytes off len).1 = buf)
    ∧ (∀ buf v L U e, (write_int buf v (L, U)).2 = some e →
        (write_int buf v (L, U)).1 = buf)
    ∧ (∀ buf n e, (write_length_determinant buf n).2 = some e →
        (write_length_determinant buf n).1 = buf)
    ∧ (∀ buf v e, (write_int_max buf v).2 = some e → (write_int_max buf v).1 = buf)
    ∧ (∀ buf i n e, (write_choice_index buf i n).2 = some e →
        (write_choice_index buf i n).1 = buf)
    ∧ (∀ buf s r e, (write_octet_string buf s r).2 = some e →
        (write_octet_string buf s r).1 = buf)
    ∧ (∀ buf s e, (write_utf8_string buf s).2 = some e → (write_utf8_string buf s).1 = buf)
    ∧ (∀ buf p e, (write_substring_with_length_determinant_pfx buf p).2 = some e →
        (write_substring_with_length_determinant_pfx buf p).1 = buf)
    ∧ (∀ buf v e, (write_int_normally_small buf v).2 = some e →
        (write_int_normally_small buf v).1 = buf.write_bit true)
    ∧ (∀ buf i n e, (write_choice_index_extensible buf i n).2 = some e →
        (write_choice_index_extensible buf i n).1 = (buf.write_bit true).write_bit true
        ∨ (write_choice_index_extensible buf i n).1 = buf.write_bit false) :=
  ⟨write_bit_string_unchanged_of_err,
   fun buf v L U e h => write_int_unchanged_of_err buf v L U e h,
   write_length_determinant_unchanged_of_err,
   write_int_max_unchanged_of_err,
   write_choice_index_unchanged_of_err,
   write_octet_string_unchanged_of_err,
   write_utf8_string_unchanged_of_err,
   write_substring_unchanged_of_err,
   write_int_normally_small_err_shape,
   write_choice_index_extensible_err_shape⟩

/-- Counterexample to Claim C3 as stated: `write_int_normally_small` on the
out-of-range value `2^63` fails with `ValueNotInRange` yet has already
appended its extension-prefix bit, so the buffer content is changed. -/
theorem c3_counterexample :
    (write_int_normally_small (BitBuffer.mk [] 0) (2 ^ 63)).2
        = some (Error.ValueNotInRange (-(2 ^ 63)) 0 (2 ^ 63 - 1))
    ∧ (write_int_normally_small (BitBuffer.mk [] 0) (2 ^ 63)).1.bits = [true]
    ∧ (BitBuffer.mk [] 0).bits ≠ [true] := by decide

theorem c3_witness :
    (write_int (BitBuffer.mk [] 0) 5 (0, 1)).1 = BitBuffer.mk [] 0
    ∧ (write_int_normally_small (BitBuffer.mk [] 0) (2 ^ 64 - 1)).1
        = (BitBuffer.mk [] 0).write_bit true :=
  ⟨c3_write_error_atomicity.2.1 (BitBuffer.mk [] 0) 5 0 1
      (Error.ValueNotInRange 5 0 1) (by decide),
   c3_write_error_atomicity.2.2.2.2.2.2.2.2.1 (BitBuffer.mk [] 0) (2 ^ 64 - 1)
      (Error.ValueNotInRange (-1) 0 (2 ^ 63 - 1)) (by decide)⟩

/-! ### ValueNotInRange classification (C7) -/

theorem write_int_none_of_in_range (buf : BitBuffer) (v L U : Int)
    (h : ¬(v > U ∨ v < L)) : (write_int buf v (L, U)).2 = none := by
  simp only [write_int]
  rw [if_neg h]
  rw [write_bit_string_till_end_eq _ _ _ (by
    rw [be_bytes_length]
    have := lz_le_64 (u64_of_i64 (U - L))
    omega)]

theorem read_bit_err_eq (buf b1 : BitBuffer) (e : Error)
    (h : buf.read_bit = (b1, .error e)) : e = .EndOfStream := by
  by_cases hlt : buf.read_pos < buf.bits.length
  · rw [read_bit_lt buf hlt] at h
    simp at h
  · rw [read_bit_ge buf (by omega)] at h
    simp only [Prod.mk.injEq, Except.error.injEq] at h
    exact h.2.symm

theorem read_till_end_err_class (buf : BitBuffer) (dst : List Nat) (off : Nat)
    (buf' : BitBuffer) (dst' : List Nat) (e : Error)
    (h : read_bit_string_till_end buf dst off = (buf', dst', some e)) :
    e = .InsufficientSpaceInDestinationBuffer ∨ e = .EndOfStream := by
  simp only [read_bit_string_till_end] at h
  exact read_bit_string_err _ _ _ _ _ _ _ h

theorem read_int_no_vnir (buf : BitBuffer) (L U : Int) (b' : BitBuffer) (e : Error)
    (h : read_int buf (L, U) = (b', .error e)) : e.isValueNotInRange = false := by
  rw [read_int_err buf L U b' e h]
  rfl

theorem read_length_determinant_no_vnir (buf b' : BitBuffer) (e : Error)
    (h : read_length_determinant buf = (b', .error e)) : e.isValueNotInRange = false := by
  simp only [read_length_determinant] at h
  split at h
  · rename_i buf1 e1 heq
    simp only [Prod.mk.injEq, Except.error.injEq] at h
    rw [← h.2, read_bit_err_eq buf buf1 e1 heq]
    rfl
  · rename_i buf1 b1 heq
    split at h
    · split at h
      · simp at h
      · rename_i buf2 e2 heq2
        simp only [Prod.mk.injEq, Except.error.injEq] at h
        rw [← h.2, read_int_err buf1 0 UPER_LENGTH_DET_L1 buf2 e2 heq2]
        rfl
    · split at h
      · rename_i buf2 e2 heq2
        simp only [Prod.mk.injEq, Except.error.injEq] at h
        rw [← h.2, read_bit_err_eq buf1 buf2 e2 heq2]
        rfl
      · rename_i buf2 b2 heq2
        split at h
        · split at h
          · simp at h
          · rename_i buf3 e3 heq3
            simp only [Prod.mk.injEq, Except.error.injEq] at h
            rw [← h.2, read_int_err buf2 0 UPER_LENGTH_DET_L2 buf3 e3 heq3]
            rfl
        · simp only [Prod.mk.injEq, Except.error.injEq] at h
          rw [← h.2]
          rfl

theorem read_int_max_no_vnir (buf b' : BitBuffer) (e : Error)
    (h : read_int_max buf = (b', .error e)) : e.isValueNotInRange = false := by
  simp only [read_int_max] at h
  split at h
  · rename_i buf1 e1 heq
    simp only [Prod.mk.injEq, Except.error.injEq] at h
    rw [← h.2]
    exact read_length_determinant_no_vnir buf buf1 e1 heq
  · rename_i buf1 len heq
    split at h
    · simp only [Prod.mk.injEq, Except.error.injEq] at h
      rw [← h.2]
      rfl
    · split at h
      · simp at h
      · rename_i buf2 dst2 e2 heq2
        simp only [Prod.mk.injEq, Except.error.injEq] at h
        rw [← h.2]
        rcases read_till_end_err_class _ _ _ _ _ _ heq2 with h3 | h3 <;> rw [h3] <;> rfl

theorem read_int_normally_small_no_vnir (buf b' : BitBuffer) (e : Error)
    (h : read_int_normally_small buf = (b', .error e)) : e.isValueNotInRange = false := by
  simp only [read_int_normally_small] at h
  split at h
  · rename_i buf1 e1 heq
    simp only [Prod.mk.injEq, Except.error.injEq] at h
    rw [← h.2, read_bit_err_eq buf buf1 e1 heq]
    rfl
  · rename_i buf1 b1 heq
    split at h
    · split at h
      · simp at h
      · rename_i buf2 bytes2 e2 heq2
        simp only [Prod.mk.injEq, Except.error.injEq] at h
        rw [← h.2]
        rcases read_bit_string_err _ _ _ _ _ _ _ heq2 with h3 | h3 <;> rw [h3] <;> rfl
    · exact read_int_max_no_vnir buf1 b' e h

theorem read_choice_index_no_vnir (buf : BitBuffer) (n : Nat) (b' : BitBuffer) (e : Error)
    (h : read_choice_index buf n = (b', .error e)) : e.isValueNotInRange = false := by
  simp only [read_choice_index] at h
  split at h
  · simp at h
  · rename_i buf1 e1 heq
    simp only [Prod.mk.injEq, Except.error.injEq] at h
    rw [← h.2]
    exact read_int_no_vnir buf _ _ buf1 e1 heq

theorem read_choice_index_extensible_no_vnir (buf : BitBuffer) (n : Nat)
    (b' : BitBuffer) (e : Error)
    (h : read_choice_index_extensible buf n = (b', .error e)) :
    e.isValueNotInRange = false := by
  simp only [read_choice_index_extensible] at h
  split at h
  · rename_i buf1 e1 heq
    simp only [Prod.mk.injEq, Except.error.injEq] at h
    rw [← h.2, read_bit_err_eq buf buf1 e1 heq]
    rfl
  · rename_i buf1 b1 heq
    split at h
    · split at h
      · simp at h
      · rename_i buf2 e2 heq2
        simp only [Prod.mk.injEq, Except.error.injEq] at h
        rw [← h.2]
        exact read_int_normally_small_no_vnir buf1 buf2 e2 heq2
    · exact read_choice_index_no_vnir buf1 n b' e h

theorem read_octet_string_no_vnir (buf : BitBuffer) (r : Option (Int × Int))
    (b' : BitBuffer) (e : Error)
    (h : read_octet_string buf r = (b', .error e)) : e.isValueNotInRange = false := by
  rcases r with _ | ⟨mn, mx⟩
  · simp only [read_octet_string] at h
    split at h
    · rename_i buf1 e1 heq
      simp only [Prod.mk.injEq, Except.error.injEq] at h
      rw [← h.2]
      exact read_length_determinant_no_vnir buf buf1 e1 heq
    · split at h
      · simp at h
      · rename_i buf2 bytes2 e2 heq2
        simp only [Prod.mk.injEq, Except.error.injEq] at h
        rw [← h.2]
        rcases read_till_end_err_class _ _ _ _ _ _ heq2 with h3 | h3 <;> rw [h3] <;> rfl
  · simp only [read_octet_string] at h
    split at h
    · rename_i buf1 e1 heq
      simp only [Prod.mk.injEq, Except.error.injEq] at h
      rw [← h.2]
      split at heq
      · simp at heq
      · rename_i buf0 e0 heq0
        simp only [Prod.mk.injEq, Except.error.injEq] at heq
        rw [← heq.2]
        exact read_int_no_vnir buf mn mx buf0 e0 heq0
    · split at h
      · simp at h
      · rename_i buf2 bytes2 e2 heq2
        simp only [Prod.mk.injEq, Except.error.injEq] at h
        rw [← h.2]
        rcases read_till_end_err_class _ _ _ _ _ _ heq2 with h3 | h3 <;> rw [h3] <;> rfl

theorem read_utf8_string_no_vnir (buf b' : BitBuffer) (e : Error)
    (h : read_utf8_string buf = (b', .error e)) : e.isValueNotInRange = false := by
  simp only [read_utf8_string] at h
  split at h
  · rename_i buf1 e1 heq
    simp only [Prod.mk.injEq, Except.error.injEq] at h
    rw [← h.2]
    exact read_length_determinant_no_vnir buf buf1 e1 heq
  · split at h
    · split at h
      · simp at h
      · simp only [Prod.mk.injEq, Except.error.injEq] at h
        rw [← h.2]
        rfl
    · rename_i buf2 bytes2 e2 heq2
      simp only [Prod.mk.injEq, Except.error.injEq] at h
      rw [← h.2]
      rcases read_till_end_err_class _ _ _ _ _ _ heq2 with h3 | h3 <;> rw [h3] <;> rfl

theorem read_substring_no_vnir (buf b' : BitBuffer) (e : Error)
    (h : read_substring_with_length_determinant_pfx buf = (b', .error e)) :
    e.isValueNotInRange = false := by
  simp only [read_substring_with_length_determinant_pfx] at h
  split at h
  · rename_i buf1 e1 heq
    simp only [Prod.mk.injEq, Except.error.injEq] at h
    rw [← h.2]
    exact read_length_determinant_no_vnir buf buf1 e1 heq
  · split at h
    · simp at h
    · rename_i buf2 bytes2 e2 heq2
      simp only [Prod.mk.injEq, Except.error.injEq] at h
      rw [← h.2]
      rcases read_bit_string_err _ _ _ _ _ _ _ heq2 with h3 | h3 <;> rw [h3] <;> rfl

/-- Claim C7: `write_int` fails with exactly `ValueNotInRange value lower upper`
precisely when the value lies strictly outside the inclusive constrained range,
and no read operation — `read_int`, `read_length_determinant`,
`read_int_normally_small`, `read_int_max`, `read_choice_index`,
`read_choice_index_extensible`, or the octet-string / UTF-8 / sub-string
readers built on them — ever returns a `ValueNotInRange` error. -/
theorem c7_vnir_classification :
    (∀ buf v L U e, (write_int buf v (L, U)).2 = some e
        ↔ ((v > U ∨ v < L) ∧ e = .ValueNotInRange v L U))
    ∧ (∀ buf L U b' e, read_int buf (L, U) = (b', .error e) → e.isValueNotInRange = false)
    ∧ (∀ buf b' e, read_length_determinant buf = (b', .error e) →
        e.isValueNotInRange = false)
    ∧ (∀ buf b' e, read_int_max buf = (b', .error e) → e.isValueNotInRange = false)
    ∧ (∀ buf b' e, read_int_normally_small buf = (b', .error e) →
        e.isValueNotInRange = false)
    ∧ (∀ buf n b' e, read_choice_index buf n = (b', .error e) → e.isValueNotInRange = false)
    ∧ (∀ buf n b' e, read_choice_index_extensible buf n = (b', .error e) →
        e.isValueNotInRange = false)
    ∧ (∀ buf r b' e, read_octet_string buf r = (b', .error e) → e.isValueNotInRange = false)
    ∧ (∀ buf b' e, read_utf8_string buf = (b', .error e) → e.isValueNotInRange = false)
    ∧ (∀ buf b' e, read_substring_with_length_determinant_pfx buf = (b', .error e) →
        e.isValueNotInRange = false) := by
  refine ⟨?_, read_int_no_vnir, read_length_determinant_no_vnir, read_int_max_no_vnir,
    read_int_normally_small_no_vnir, read_choice_index_no_vnir,
    read_choice_index_extensible_no_vnir, read_octet_string_no_vnir,
    read_utf8_string_no_vnir, read_substring_no_vnir⟩
  intro buf v L U e
  constructor
  · intro h
    by_cases hr : v > U ∨ v < L
    · rw [write_int_err buf v L U hr] at h
      simp only [Option.some.injEq] at h
      exact ⟨hr, h.symm⟩
    · rw [write_int_none_of_in_range buf v L U hr] at h
      simp at h
  · rintro ⟨hr, rfl⟩
    rw [write_int_err buf v L U hr]

theorem c7_witness :
    (write_int (BitBuffer.mk [] 0) 9 (0, 3)).2 = some (Error.ValueNotInRange 9 0 3)
    ∧ Error.isValueNotInRange Error.EndOfStream = false :=
  ⟨(c7_vnir_classification.1 (BitBuffer.mk [] 0) 9 0 3
      (Error.ValueNotInRange 9 0 3)).mpr ⟨Or.inl (by decide), rfl⟩,
   c7_vnir_classification.2.2.1 (BitBuffer.mk [] 0) (BitBuffer.mk [] 0)
      Error.EndOfStream rfl⟩

/-- Claim C9: when `read_bit_string` succeeds, the destination keeps its length,
every destination bit outside the MSB-first window
`bit_offset .. bit_offset + bit_length - 1` keeps its prior value, and the bits
inside the window are the bits read from the stream. -/
theorem c9_read_bit_string_frame (buf : BitBuffer) (dst : List Nat) (off len : Nat)
    (buf' : BitBuffer) (dst' : List Nat)
    (h : read_bit_string buf dst off len = (buf', dst', none)) :
    dst'.length = dst.length
    ∧ (∀ i, ¬(off ≤ i ∧ i < off + len) → byteBit dst' i = byteBit dst i)
    ∧ (∀ i, off ≤ i → i < off + len → i < 8 * dst.length →
        byteBit dst' i = buf.bits.getD (buf.read_pos + (i - off)) false) := by
  obtain ⟨hg, hl⟩ := read_bit_string_none_inv buf dst off len buf' dst' h
  obtain ⟨dst2, heq, hlen, hbit, _⟩ := read_bit_string_spec buf dst off len hg (by omega)
  rw [h] at heq
  simp only [Prod.mk.injEq] at heq
  obtain ⟨hb, hd, _⟩ := heq
  subst hd
  refine ⟨hlen, ?_, ?_⟩
  · intro i hi
    rw [hbit i, if_neg (by tauto)]
  · intro i h1 h2 h3
    rw [hbit i, if_pos ⟨h1, h2, h3⟩]

theorem c9_witness :
    ([40] : List Nat).length = ([0] : List Nat).length
    ∧ (∀ i, ¬(2 ≤ i ∧ i < 2 + 3) → byteBit [40] i = byteBit [0] i)
    ∧ (∀ i, 2 ≤ i → i < 2 + 3 → i < 8 * ([0] : List Nat).length →
        byteBit [40] i
          = (BitBuffer.mk [true, false, true] 0).bits.getD (0 + (i - 2)) false) :=
  c9_read_bit_string_frame (BitBuffer.mk [true, false, true] 0) [0] 2 3
    (BitBuffer.mk [true, false, true] 3) [40] (by decide)

/-! ### The length determinant is bounded by 16383 (C10) -/

theorem read_bit_string_length_none (buf : BitBuffer) (dst : List Nat) (off len : Nat)
    (buf' : BitBuffer) (dst' : List Nat)
    (h : read_bit_string buf dst off len = (buf', dst', none)) :
    dst'.length = dst.length := by
  obtain ⟨hg, hl⟩ := read_bit_string_none_inv buf dst off len buf' dst' h
  obtain ⟨dst2, heq, hlen, _, _⟩ := read_bit_string_spec buf dst off len hg (by omega)
  rw [h] at heq
  simp only [Prod.mk.injEq] at heq
  rw [heq.2.1]
  exact hlen

theorem read_till_end_length_none (buf : BitBuffer) (dst : List Nat) (off : Nat)
    (buf' : BitBuffer) (dst' : List Nat)
    (h : read_bit_string_till_end buf dst off = (buf', dst', none)) :
    dst'.length = dst.length := by
  simp only [read_bit_string_till_end] at h
  exact read_bit_string_length_none _ _ _ _ _ _ h

theorem read_length_determinant_ok_le (buf b' : BitBuffer) (n : Nat)
    (h : read_length_determinant buf = (b', .ok n)) : n ≤ 16383 := by
  simp only [read_length_determinant] at h
  split at h
  · simp at h
  · rename_i buf1 b1 heq
    split at h
    · split at h
      · rename_i buf2 v heq2
        simp only [Prod.mk.injEq, Except.ok.injEq] at h
        obtain ⟨d, hd, hv, _⟩ := read_int_ok_inv buf1 0 UPER_LENGTH_DET_L1 buf2 v heq2
        rw [show (64 - leadingZeros64 (u64_of_i64 (UPER_LENGTH_DET_L1 - 0))) = 7 from by
          decide] at hd
        have hv2 : v = (d : Int) := by
          rw [hv, i64_of_u64_of_lt d (by omega)]
          exact wrap64_eq ((d : Int) + 0) (d : Int) ⟨0, by ring⟩ (by omega) (by omega)
        rw [← h.2, hv2, u64_of_i64_natCast d (by omega)]
        omega
      · simp at h
    · split at h
      · simp at h
      · rename_i buf2 b2 heq2
        split at h
        · split at h
          · rename_i buf3 v heq3
            simp only [Prod.mk.injEq, Except.ok.injEq] at h
            obtain ⟨d, hd, hv, _⟩ := read_int_ok_inv buf2 0 UPER_LENGTH_DET_L2 buf3 v heq3
            rw [show (64 - leadingZeros64 (u64_of_i64 (UPER_LENGTH_DET_L2 - 0))) = 14 from by
              decide] at hd
            have hv2 : v = (d : Int) := by
              rw [hv, i64_of_u64_of_lt d (by omega)]
              exact wrap64_eq ((d : Int) + 0) (d : Int) ⟨0, by ring⟩ (by omega) (by omega)
            rw [← h.2, hv2, u64_of_i64_natCast d (by omega)]
            omega
          · simp at h
        · simp at h

/-- Claim C10: whenever `read_length_determinant` succeeds its value is at most
16383 (only the one- and two-byte forms are readable), so the byte count the
UTF-8, octet-string (unbounded form) and sub-string readers attempt after the
determinant never exceeds 16383. -/
theorem c10_length_determinant_bounded :
    (∀ buf b' n, read_length_determinant buf = (b', .ok n) → n ≤ 16383)
    ∧ (∀ buf b' s, read_utf8_string buf = (b', .ok s) → s.length ≤ 16383)
    ∧ (∀ buf b' s, read_octet_string buf none = (b', .ok s) → s.length ≤ 16383)
    ∧ (∀ buf b' inner, read_substring_with_length_determinant_pfx buf = (b', .ok inner) →
        inner.bit_len ≤ 8 * 16383) := by
  refine ⟨read_length_determinant_ok_le, ?_, ?_, ?_⟩
  · intro buf b' s h
    simp only [read_utf8_string] at h
    split at h
    · simp at h
    · rename_i buf1 len heq
      split at h
      · rename_i buf2 bytes2 heq2
        split at h
        · simp only [Prod.mk.injEq, Except.ok.injEq] at h
          have hlen := read_till_end_length_none _ _ _ _ _ heq2
          rw [List.length_replicate] at hlen
          rw [← h.2, hlen]
          exact read_length_determinant_ok_le buf buf1 len heq
        · simp at h
      · simp at h
  · intro buf b' s h
    simp only [read_octet_string] at h
    split at h
    · simp at h
    · rename_i buf1 len heq
      split at h
      · rename_i buf2 bytes2 heq2
        simp only [Prod.mk.injEq, Except.ok.injEq] at h
        have hlen := read_till_end_length_none _ _ _ _ _ heq2
        rw [List.length_replicate] at hlen
        rw [← h.2, hlen]
        exact read_length_determinant_ok_le buf buf1 len heq
      · simp at h
  · intro buf b' inner h
    simp only [read_substring_with_length_determinant_pfx] at h
    split at h
    · simp at h
    · rename_i buf1 byteLen heq
      split at h
      · rename_i buf2 bytes2 heq2
        simp only [Prod.mk.injEq, Except.ok.injEq] at h
        have hle := read_length_determinant_ok_le buf buf1 byteLen heq
        rw [← h.2]
        show (BitBuffer.from_bits bytes2 (byteLen * 8)).bits.length ≤ 8 * 16383
        simp only [BitBuffer.from_bits]
        rw [List.length_map, List.length_range]
        omega
      · simp at h

theorem c10_witness : (0 : Nat) ≤ 16383 :=
  c10_length_determinant_bounded.1 (BitBuffer.mk (List.replicate 8 false) 0)
    (BitBuffer.mk (List.replicate 8 false) 8) 0 (by rfl)

end Uper
